import Mathlib

/-!
# xv6 custom shell (`my_shell.c`): shallow embedding and verification

The shell is embedded as pure functions over an explicit machine state.

* The line buffer is a list of characters addressed by position; a `char *` is a
  position (`Nat`), a nullable `char *` is an `Option Nat`.
* `char *argv[MAXARG]` is a list of nullable pointers of fixed length.  A write
  past its end, or a read past the end of either array, is undefined behaviour in
  C and is reported as a `Fault`.
* Loops are recursive functions with a fuel argument sized from the buffer; the
  theorems show that the fuel never runs out on well-formed input.
* The operating system is an explicit descriptor table in which `open`, `dup`
  and `pipe` hand out the lowest free descriptor, together with an oracle `Env`
  that decides which `open`, `chdir` and `exec` calls succeed.  Every system call
  a process makes is recorded as an `Event`.
-/

namespace MyShell

/-! ## Data model -/

/-- The character buffer holding the command line (`static char buf[100]`). -/
abbrev Mem := List Char

/-- A C string as a value: its characters, terminator excluded. -/
abbrev CStr := List Char

/-- The array `char *argv[]`: each slot is a null pointer or a position in the buffer. -/
abbrev Argv := List (Option Nat)

/-- The string terminator. -/
def NUL : Char := Char.ofNat 0

/-- Undefined behaviour of the C program that the embedding makes observable. -/
inductive Fault where
  | oobRead
  | oobWrite
  | fuel
  deriving DecidableEq, Repr

/-- Outcome of running embedded code: a value, or a fault. -/
inductive Res (α : Type) where
  | ok (a : α)
  | fault (f : Fault)
  deriving DecidableEq, Repr

/-- Modelled from the spec: `MAXARG` comes from `kernel/param.h`, which is not
among the sources; xv6 sets it to 32. -/
def MAXARG : Nat := 32

/-- The three separator characters tested by `split`. -/
def isWs (c : Char) : Bool := c == ' ' || c == '\n' || c == '\t'

/-- The string `argv[i]` designates: the characters from position `p` up to the
first terminator, or `none` when the buffer ends before a terminator. -/
def cstrOf : List Char → Option CStr
  | [] => none
  | c :: cs => if c = NUL then some [] else (cstrOf cs).map (fun s => c :: s)

/-- Reading a C string through a pointer into the buffer. -/
def cstr (mem : Mem) (p : Nat) : Option CStr := cstrOf (mem.drop p)

/-- The store `argv[n] = v`; out of bounds when `n` is not a slot of the array. -/
def argv_store (argv : Argv) (n : Nat) (v : Option Nat) : Res Argv :=
  if n < argv.length then .ok (argv.set n v) else .fault .oobWrite

/-! ## `split` (my_shell.c lines 9-30) -/

/-- First inner loop: `while (*buf == ' ' || *buf == '\n' || *buf == '\t') *buf++ = '\0';` -/
def split_ws : Nat → Mem → Nat → Res (Mem × Nat)
  | 0, _, _ => .fault .fuel
  | fuel + 1, mem, buf =>
    match mem[buf]? with
    | none => .fault .oobRead
    | some c =>
      if c == ' ' || c == '\n' || c == '\t' then split_ws fuel (mem.set buf NUL) (buf + 1)
      else .ok (mem, buf)

/-- Second inner loop:
`while (*buf != '\0' && *buf != ' ' && *buf != '\n' && *buf != '\t') buf++;` -/
def split_tok : Nat → Mem → Nat → Res Nat
  | 0, _, _ => .fault .fuel
  | fuel + 1, mem, buf =>
    match mem[buf]? with
    | none => .fault .oobRead
    | some c =>
      if c != NUL && c != ' ' && c != '\n' && c != '\t' then split_tok fuel mem (buf + 1)
      else .ok buf

/-- Outer loop `while (*buf != '\0') { ... }` of `split`, returning the buffer,
the array and the counter `n`. -/
def split_loop : Nat → Mem → Nat → Argv → Nat → Res (Mem × Argv × Nat)
  | 0, _, _, _, _ => .fault .fuel
  | fuel + 1, mem, buf, argv, n =>
    match mem[buf]? with
    | none => .fault .oobRead
    | some c =>
      if c != NUL then
        match split_ws (mem.length + 1) mem buf with
        | .fault f => .fault f
        | .ok (mem1, buf1) =>
          match mem1[buf1]? with
          | none => .fault .oobRead
          | some c1 =>
            -- if (*buf != '\0') argv[n++] = buf;
            match (if c1 != NUL then
                    (match argv_store argv n (some buf1) with
                     | .ok a => Res.ok (a, n + 1)
                     | .fault f => Res.fault f)
                   else Res.ok (argv, n)) with
            | .fault f => .fault f
            | .ok (argv1, n1) =>
              match split_tok (mem1.length + 1) mem1 buf1 with
              | .fault f => .fault f
              | .ok buf2 => split_loop fuel mem1 buf2 argv1 n1
      else .ok (mem, argv, n)

/-- The function `void split(char *buf, char *argv[])`: it returns the mutated
buffer and the filled array. -/
def split (mem : Mem) (buf : Nat) (argv : Argv) : Res (Mem × Argv) :=
  match split_loop (mem.length + 1) mem buf argv 0 with
  | .fault f => .fault f
  | .ok (mem1, argv1, n) =>
    -- argv[n] = 0;
    match argv_store argv1 n none with
    | .fault f => .fault f
    | .ok argv2 => .ok (mem1, argv2)

/-- The argument vector an array denotes: the pointers before the first null slot. -/
def argvPtrs : Argv → List Nat
  | some p :: rest => p :: argvPtrs rest
  | _ => []

/-- The strings of an argument vector, read from the buffer. -/
def argvToks (mem : Mem) (argv : Argv) : List CStr :=
  (argvPtrs argv).filterMap (cstr mem)

/-! ## Operating-system model -/

/-- Modelled from the spec: the open-mode flags of `kernel/fcntl.h`, which is not
among the sources; they are kept symbolic, a flag word being the list of the
flags or-ed together. -/
inductive OFlag where
  | O_RDONLY
  | O_WRONLY
  | O_RDWR
  | O_CREATE
  | O_TRUNC
  deriving DecidableEq, Repr

/-- What a descriptor refers to: a stream the interpreter inherited, one end of
a pipe (pipes are numbered in the order the interpreter creates them), or a file
opened by name. -/
inductive Obj where
  | inherited (fd : Nat)
  | pipeRead (id : Nat)
  | pipeWrite (id : Nat)
  | file (path : CStr) (flags : List OFlag)
  deriving DecidableEq, Repr

/-- A per-process descriptor table; slot `i` is descriptor `i`. -/
abbrev FdTable := List (Option Obj)

/-- A system call (or `printf`) made by a process, with its result. -/
inductive Event where
  | pipe (r w : Nat)
  | fork
  | close (fd : Nat)
  | dup (fd : Nat) (res : Option Nat)
  | open (path : CStr) (flags : List OFlag) (res : Option Nat)
  | chdir (path : CStr) (ok : Bool)
  | printf (fmt : String) (args : List (Option CStr))
  | exec (path : Option CStr) (ok : Bool)
  | exit (status : Nat)
  | wait (reaped : Bool)
  deriving DecidableEq, Repr

/-- Modelled from the spec: the outcomes of the OS primitives the shell cannot
control.  `openOk stage i path flags` tells whether the `open` made by the child
of stage `stage` while looking at `argv[i]` succeeds, `chdirOk` whether `chdir`
succeeds, `execOk stage path` whether the `exec` of that child succeeds. -/
structure Env where
  openOk : Nat → Nat → CStr → List OFlag → Bool
  chdirOk : CStr → Bool
  execOk : Nat → Option CStr → Bool

/-- The lowest descriptor that is not open. -/
def lowestFree : FdTable → Nat
  | [] => 0
  | none :: _ => 0
  | some _ :: t => lowestFree t + 1

/-- Modelled from the spec: descriptor allocation of the OS, which always picks
the lowest free descriptor. -/
def fdalloc (tbl : FdTable) (o : Obj) : FdTable × Nat :=
  let fd := lowestFree tbl
  (if fd < tbl.length then tbl.set fd (some o) else tbl ++ [some o], fd)

/-- Modelled from the spec: `close(fd)`. -/
def sys_close (tbl : FdTable) (fd : Nat) : FdTable := tbl.set fd none

/-- Modelled from the spec: `dup(fd)`, which fails when `fd` is not open. -/
def sys_dup (tbl : FdTable) (fd : Nat) : FdTable × Option Nat :=
  match tbl[fd]? with
  | some (some o) => ((fdalloc tbl o).1, some (fdalloc tbl o).2)
  | _ => (tbl, none)

/-- Modelled from the spec: `pipe(fd)`, allocating the read end and then the
write end of a new pipe. -/
def sys_pipe (tbl : FdTable) (id : Nat) : FdTable × Nat × Nat :=
  let a := fdalloc tbl (.pipeRead id)
  let b := fdalloc a.1 (.pipeWrite id)
  (b.1, a.2, b.2)

/-- A process as far as the shell code is concerned: its descriptor table and
the calls it has made so far. -/
structure Proc where
  tbl : FdTable
  events : List Event
  deriving DecidableEq, Repr

/-- The call `close(fd)` made by a process. -/
def Proc.close (p : Proc) (fd : Nat) : Proc :=
  { tbl := sys_close p.tbl fd, events := p.events ++ [.close fd] }

/-- The call `dup(fd)` made by a process (the shell ignores the result). -/
def Proc.dup (p : Proc) (fd : Nat) : Proc :=
  { tbl := (sys_dup p.tbl fd).1, events := p.events ++ [.dup fd (sys_dup p.tbl fd).2] }

/-- The call `printf(fmt, args...)` made by a process. -/
def Proc.printf (p : Proc) (fmt : String) (args : List (Option CStr)) : Proc :=
  { p with events := p.events ++ [.printf fmt args] }

/-! ## `redirect_io` (my_shell.c lines 34-62) -/

/-- The body shared by both branches of `redirect_io` once the operator matched:
`fd = open(argv[i+1], flags); if (fd < 0) return -1; close(std); dup(fd); close(fd);`.
The flag is `false` when `open` failed, and nothing else was done then. -/
def redirect_to (env : Env) (stage i : Nat) (p : Proc) (path : CStr) (flags : List OFlag)
    (std : Nat) : Proc × Bool :=
  if env.openOk stage i path flags then
    let a := fdalloc p.tbl (.file path flags)
    let p1 : Proc := { tbl := a.1, events := p.events ++ [.open path flags (some a.2)] }
    (((p1.close std).dup a.2).close a.2, true)
  else
    ({ p with events := p.events ++ [.open path flags none] }, false)

/-- The loop `for (int i = 0; argv[i] != 0; i++) { ... }` of `redirect_io`,
returning the value of `redirect_io`, the array and the process state. -/
def redirect_io_loop (env : Env) (stage : Nat) (mem : Mem) :
    Nat → Nat → Argv → Proc → Int → Res (Int × Argv × Proc)
  | 0, _, _, _, _ => .fault .fuel
  | fuel + 1, i, argv, p, handled =>
    match argv[i]? with
    | none => .fault .oobRead
    | some none => .ok (handled, argv, p)
    | some (some s) =>
      match cstr mem s with
      | none => .fault .oobRead
      | some tok =>
        if tok = ['>'] then
          match argv[i + 1]? with
          | none => .fault .oobRead
          | some none => redirect_io_loop env stage mem fuel (i + 1) argv p handled
          | some (some f) =>
            match cstr mem f with
            | none => .fault .oobRead
            | some path =>
              match redirect_to env stage i p path [.O_CREATE, .O_WRONLY] 1 with
              | (p1, false) => .ok (-1, argv, p1)
              | (p1, true) =>
                redirect_io_loop env stage mem fuel (i + 1) (argv.set i none) p1 1
        else if tok = ['<'] then
          match argv[i + 1]? with
          | none => .fault .oobRead
          | some none => redirect_io_loop env stage mem fuel (i + 1) argv p handled
          | some (some f) =>
            match cstr mem f with
            | none => .fault .oobRead
            | some path =>
              match redirect_to env stage i p path [.O_RDONLY] 0 with
              | (p1, false) => .ok (-1, argv, p1)
              | (p1, true) =>
                redirect_io_loop env stage mem fuel (i + 1) (argv.set i none) p1 1
        else redirect_io_loop env stage mem fuel (i + 1) argv p handled

/-- The function `int redirect_io(char *argv[])`, run by process `p`. -/
def redirect_io (env : Env) (stage : Nat) (mem : Mem) (argv : Argv) (p : Proc) :
    Res (Int × Argv × Proc) :=
  redirect_io_loop env stage mem (argv.length + 1) 0 argv p 0

/-! ## `run_command` (my_shell.c lines 66-133) -/

/-- What is known about the child forked for one stage when it stops running the
shell code: the stage number, whether a pipe to a next stage exists, the tokens
it was forked with, its argument array and its process state at that moment. -/
structure Child where
  stage : Nat
  hasNext : Bool
  toks : List CStr
  argv : Argv
  proc : Proc
  deriving DecidableEq, Repr

/-- The pipe wiring done by the child before `redirect_io`, lines 96-106:
`if (fd_in != 0) { close(0); dup(fd_in); close(fd_in); }` and
`if (next_cmd != 0) { close(fd[0]); close(1); dup(fd[1]); close(fd[1]); }`,
starting from a copy `tbl` of the interpreter's descriptor table. -/
def wire_pipes (tbl : FdTable) (fd_in : Nat) (next : Option (Nat × Nat)) : Proc :=
  let p0 : Proc := { tbl := tbl, events := [] }
  let p1 := if fd_in ≠ 0 then ((p0.close 0).dup fd_in).close fd_in else p0
  match next with
  | some (r, w) => (((p1.close r).close 1).dup w).close w
  | none => p1

/-- The last lines of the child, 113-115: `exec(argv[0], argv);` and, if it
returns, `printf("%s: command not found\n", argv[0]); exit(1);`. -/
def exec_or_exit (env : Env) (stage : Nat) (p : Proc) (name : Option CStr) : Proc :=
  if env.execOk stage name then
    { p with events := p.events ++ [.exec name true] }
  else
    { p with events := p.events ++
        [.exec name false, .printf "%s: command not found\n" [name], .exit 1] }

/-- The code run by the child, lines 94-116: pipe wiring, `redirect_io`, `exec`. -/
def run_child (env : Env) (stage : Nat) (mem : Mem) (argv : Argv) (tbl : FdTable)
    (fd_in : Nat) (next : Option (Nat × Nat)) : Res Child :=
  let mk (a : Argv) (p : Proc) : Child :=
    { stage := stage, hasNext := next.isSome, toks := argvToks mem argv, argv := a, proc := p }
  match redirect_io env stage mem argv (wire_pipes tbl fd_in next) with
  | .fault f => .fault f
  | .ok (ret, argv1, p3) =>
    if ret < 0 then
      -- printf("Redirection failed\n"); exit(1);
      .ok (mk argv1 { p3 with events := p3.events ++ [.printf "Redirection failed\n" [], .exit 1] })
    else
      match argv1[0]? with
      | none => .fault .oobRead
      | some none => .ok (mk argv1 (exec_or_exit env stage p3 none))
      | some (some a0) =>
        match cstr mem a0 with
        | none => .fault .oobRead
        | some name => .ok (mk argv1 (exec_or_exit env stage p3 (some name)))

/-- Modelled from the spec: `strchr(s, c)` of the xv6 user library, which is not
among the sources.  On the characters from `s` on it yields `none` when the
buffer ends before a terminator, `some none` when `c` does not occur before the
terminator, and `some (some k)` for the first occurrence `s + k`. -/
def strchrOf (c : Char) : List Char → Option (Option Nat)
  | [] => none
  | x :: xs =>
    if x = NUL then some none
    else if x = c then some (some 0)
    else (strchrOf c xs).map (fun r => r.map (fun k => k + 1))

/-- The call `strchr(cmd, c)` on the buffer, as a nullable position. -/
def strchr (mem : Mem) (s : Nat) (c : Char) : Option (Option Nat) :=
  (strchrOf c (mem.drop s)).map (fun r => r.map (fun k => s + k))

/-- The interpreter process: line buffer, descriptor table, number of pipes it
has created so far (which numbers the next one), number of children forked and
not yet reaped, the calls made so far, and the children forked so far. -/
structure Shell where
  mem : Mem
  tbl : FdTable
  pipes : Nat
  unreaped : Nat
  events : List Event
  children : List Child
  deriving DecidableEq, Repr

/-- The interpreter seen as a process. -/
def Shell.proc (sh : Shell) : Proc := { tbl := sh.tbl, events := sh.events }

/-- Updating the interpreter after calls it made as a process. -/
def Shell.withProc (sh : Shell) (p : Proc) : Shell :=
  { sh with tbl := p.tbl, events := p.events }

/-- How the loop of `run_command` is left: towards the `wait` loop (by `break`
or because `cmd` became null), or by the `return` of the built-in `cd`. -/
inductive LoopExit where
  | toWait
  | returned
  deriving DecidableEq, Repr

/-- The built-in `cd`, lines 84-87:
`if (argv[1] == 0 || chdir(argv[1]) < 0) printf("cd: failed to change directory\n");` -/
def run_cd (env : Env) (sh : Shell) (argv : Argv) : Res Shell :=
  match argv[1]? with
  | none => .fault .oobRead
  | some none =>
    .ok (sh.withProc (sh.proc.printf "cd: failed to change directory\n" []))
  | some (some a1) =>
    match cstr sh.mem a1 with
    | none => .fault .oobRead
    | some path =>
      let p1 : Proc := { sh.proc with events := sh.events ++ [.chdir path (env.chdirOk path)] }
      if env.chdirOk path then .ok (sh.withProc p1)
      else .ok (sh.withProc (p1.printf "cd: failed to change directory\n" []))

/-- Lines 72-76: `char *next_cmd = strchr(cmd, '|');` and
`if (next_cmd != 0) { *next_cmd = '\0'; next_cmd++; }`, returning the buffer and
`next_cmd`; `none` when `strchr` runs off the buffer. -/
def cut_stage (mem : Mem) (cmd : Nat) : Option (Mem × Option Nat) :=
  match strchr mem cmd '|' with
  | none => none
  | some none => some (mem, none)
  | some (some q) => some (mem.set q NUL, some (q + 1))

/-- Lines 90-123 for one stage that is not a built-in: `pipe` when a next stage
exists, `fork`, the child's code, and the closes done by the interpreter.  Every
`fork` succeeds; the child runs `run_child` on a copy of the descriptor table
and of the array.  The result is the interpreter and the new `fd_in`. -/
def spawn_stage (env : Env) (sh : Shell) (argv : Argv) (fd_in stage : Nat) (hasNext : Bool) :
    Res (Shell × Nat) :=
  -- if (next_cmd != 0) pipe(fd);
  let pp := sys_pipe sh.tbl sh.pipes
  let fds : Option (Nat × Nat) := if hasNext then some pp.2 else none
  let sh2 : Shell := if hasNext then
      { sh with tbl := pp.1, pipes := sh.pipes + 1,
                events := sh.events ++ [.pipe pp.2.1 pp.2.2] }
    else sh
  -- if (fork() == 0) { ... }
  match run_child env stage sh.mem argv sh2.tbl fd_in fds with
  | .fault f => .fault f
  | .ok child =>
    let sh3 : Shell :=
      { sh2 with events := sh2.events ++ [.fork], unreaped := sh2.unreaped + 1,
                 children := sh2.children ++ [child] }
    -- if (fd_in != 0) close(fd_in);
    let sh4 := if fd_in ≠ 0 then sh3.withProc (sh3.proc.close fd_in) else sh3
    -- if (next_cmd != 0) { close(fd[1]); fd_in = fd[0]; }
    if hasNext then .ok (sh4.withProc (sh4.proc.close pp.2.2), pp.2.1)
    else .ok (sh4, fd_in)

/-- The loop `while (cmd != 0) { ... }` of `run_command`, lines 71-126.  `cmd` is
the position of the current stage, `fd_in` the pending input descriptor,
`stage` counts the iterations. -/
def run_loop (env : Env) : Nat → Shell → Argv → Nat → Nat → Option Nat → Res (Shell × LoopExit)
  | 0, _, _, _, _, _ => .fault .fuel
  | _ + 1, sh, _, _, _, none => .ok (sh, .toWait)
  | fuel + 1, sh, argv, fd_in, stage, some cmd =>
    match cut_stage sh.mem cmd with
    | none => .fault .oobRead
    | some (mem1, next_cmd) =>
      -- split(cmd, argv);
      match split mem1 cmd argv with
      | .fault f => .fault f
      | .ok (mem2, argv1) =>
        let sh1 : Shell := { sh with mem := mem2 }
        -- if (argv[0] == 0) break;
        match argv1[0]? with
        | none => .fault .oobRead
        | some none => .ok (sh1, .toWait)
        | some (some a0) =>
          match cstr mem2 a0 with
          | none => .fault .oobRead
          | some name =>
            -- if (strcmp(argv[0], "cd") == 0) { ...; return; }
            if name = ['c', 'd'] then
              match run_cd env sh1 argv1 with
              | .fault f => .fault f
              | .ok sh2 => .ok (sh2, .returned)
            else
              match spawn_stage env sh1 argv1 fd_in stage next_cmd.isSome with
              | .fault f => .fault f
              | .ok (sh2, fd_in1) =>
                -- cmd = next_cmd;
                run_loop env fuel sh2 argv1 fd_in1 (stage + 1) next_cmd

/-- The loop `while ((wstatus = wait(0)) != -1) { }` of lines 128-132.  Each
call of `wait` that succeeds reaps one child, and `wait` fails once the process
has no child left.  Every child is taken to terminate: a child that never exits
would keep the loop blocked in `wait`, which this definition does not represent. -/
def wait_all (sh : Shell) : Shell :=
  { sh with events := sh.events ++ List.replicate sh.unreaped (.wait true) ++ [.wait false],
            unreaped := 0 }

/-- What follows the loop in `run_command`: the `wait` loop of lines 128-132,
which the `return` of the built-in `cd` skips. -/
def after_loop (sh : Shell) : LoopExit → Shell
  | .toWait => wait_all sh
  | .returned => sh

/-- The function `void run_command(char *cmd)`; `argv` is the initial content of
its uninitialised local array `char *argv[MAXARG]`. -/
def run_command (env : Env) (sh : Shell) (argv : Argv) (cmd : Nat) : Res Shell :=
  match run_loop env (sh.mem.length + 2) sh argv 0 0 (some cmd) with
  | .fault f => .fault f
  | .ok (sh1, ex) => .ok (after_loop sh1 ex)

/-! ## The command loop of `main` (my_shell.c lines 148-155) -/

/-- The loop `while ((next_cmd = strchr(cmd, ';')) != 0) { ... }` followed by the
final `run_command(cmd)`, for one line already read into the buffer. -/
def main_line (env : Env) (argv : Argv) : Nat → Shell → Nat → Res Shell
  | 0, _, _ => .fault .fuel
  | fuel + 1, sh, cmd =>
    match strchr sh.mem cmd ';' with
    | none => .fault .oobRead
    | some none => run_command env sh argv cmd
    | some (some q) =>
      match run_command env { sh with mem := sh.mem.set q NUL } argv cmd with
      | .fault f => .fault f
      | .ok sh1 => main_line env argv fuel sh1 (q + 1)

/-- The buffer after `memset(buf, 0, sizeof(buf)); gets(buf, sizeof(buf));` has
read the characters `line` (at most 99 of them, none a terminator). -/
def lineBuf (line : List Char) : Mem := line ++ List.replicate (100 - line.length) NUL

/-- The interpreter before it runs a line: descriptors 0, 1 and 2 inherited and
open, no pipe created yet, no child outstanding. -/
def freshShell (mem : Mem) : Shell :=
  { mem := mem, tbl := [some (.inherited 0), some (.inherited 1), some (.inherited 2)],
    pipes := 0, unreaped := 0, events := [], children := [] }


/-! ## Vocabulary of the statements: `split` -/

/-- The maximal runs of characters other than space, tab and newline of a text,
from left to right: the text is cut at every separator and the empty pieces
are dropped. -/
def maximalRuns (s : List Char) : List (List Char) :=
  (s.splitOnP isWs).filter (fun t => !t.isEmpty)

/-- The buffer `split` leaves behind, on the text before the terminator: every
separator has become a terminator. -/
def zeroWs (s : List Char) : List Char := s.map (fun c => if isWs c then NUL else c)

/-- Pointer `p` designates the string `t` in `mem`: `t` sits at position `p`,
holds no terminator, and is followed by one. -/
def PointsTo (mem : Mem) (p : Nat) (t : CStr) : Prop :=
  ∃ a b, mem = a ++ t ++ NUL :: b ∧ a.length = p ∧ NUL ∉ t

/-- The array is a well-formed argument vector over the buffer: pointers to
terminated strings `toks`, then the null sentinel. -/
def ValidArgv (mem : Mem) (argv : Argv) (toks : List CStr) : Prop :=
  ∃ ptrs rest, argv = ptrs.map some ++ none :: rest ∧ List.Forall₂ (PointsTo mem) ptrs toks

/-! ## Vocabulary of the statements: `redirect_io` -/

/-- The open flags and the standard descriptor of a redirection operator token. -/
def opOf (tok : CStr) : Option (List OFlag × Nat) :=
  if tok = ['>'] then some ([.O_CREATE, .O_WRONLY], 1)
  else if tok = ['<'] then some ([.O_RDONLY], 0)
  else none

/-- Slot `j` holds a redirection operator that the loop of `redirect_io`, started
at slot `i`, handles: every slot from `i` to `j` is non-null, the string at `j`
is `>` or `<`, and slot `j + 1` is non-null. -/
def HandledFrom (mem : Mem) (argv : Argv) (i j : Nat) : Prop :=
  i ≤ j ∧ (∀ k, i ≤ k → k ≤ j → ∃ s, argv[k]? = some (some s)) ∧
  ∃ s tok f, argv[j]? = some (some s) ∧ cstr mem s = some tok ∧
    (tok = ['>'] ∨ tok = ['<']) ∧ argv[j + 1]? = some (some f)

/-- The file named after the last token equal to `op` that has a following token. -/
def lastRedir (op : CStr) : List CStr → Option CStr
  | [] => none
  | [_] => none
  | a :: b :: rest =>
    match lastRedir op (b :: rest) with
    | some f => some f
    | none => if a = op then some b else none

/-- What descriptor 0 refers to after the redirections of a stage with tokens
`toks`, when it referred to `x0` before them. -/
def stdinAfter (x0 : Obj) (toks : List CStr) : Obj :=
  match lastRedir ['<'] toks with
  | some f => .file f [.O_RDONLY]
  | none => x0

/-- What descriptor 1 refers to after the redirections of a stage with tokens
`toks`, when it referred to `y0` before them. -/
def stdoutAfter (y0 : Obj) (toks : List CStr) : Obj :=
  match lastRedir ['>'] toks with
  | some f => .file f [.O_CREATE, .O_WRONLY]
  | none => y0

/-- An `open` that failed. -/
def Event.isFailedOpen : Event → Bool
  | .open _ _ none => true
  | _ => false

/-- A call that only touches the descriptor table: `open`, `close` or `dup`. -/
def Event.isDescriptorCall : Event → Bool
  | .open _ _ _ => true
  | .close _ => true
  | .dup _ _ => true
  | _ => false

/-! ## Vocabulary of the statements: descriptors of the interpreter and of the children -/

/-- Descriptor `fd` of the table is open on `o`. -/
def OpenOn (tbl : FdTable) (fd : Nat) (o : Obj) : Prop := tbl[fd]? = some (some o)

/-- The descriptor invariant of the loop of `run_command`, `base` being the
number of pipes the interpreter had created when `run_command` was entered:
descriptors 0 and 1 of the interpreter are the ones it started with, each earlier
stage has created one pipe, and after the first stage `fd_in` is the read end of
the pipe created by the previous stage. -/
def LoopInv (a b : Obj) (base : Nat) (tbl : FdTable) (pipes fd_in stage : Nat) : Prop :=
  OpenOn tbl 0 a ∧ OpenOn tbl 1 b ∧ pipes = base + stage ∧ (stage = 0 → fd_in = 0)
  ∧ (stage ≠ 0 → 2 ≤ fd_in ∧ OpenOn tbl fd_in (.pipeRead (base + stage - 1)))

/-- A call the interpreter makes while spawning a stage: `pipe`, `fork` or `close`. -/
def Event.isSpawnCall : Event → Bool
  | .pipe _ _ => true
  | .fork => true
  | .close _ => true
  | _ => false

/-- The child has reached its `exec` call. -/
def Child.reachedExec (c : Child) : Prop := ∃ path ok, Event.exec path ok ∈ c.proc.events

/-- None of the `open` calls of the child failed. -/
def Child.opensOk (c : Child) : Prop := ∀ e ∈ c.proc.events, e.isFailedOpen = false

/-- Where descriptors 0 and 1 of the child of a stage must point when it calls
`exec`, `a` and `b` being the interpreter's own descriptors 0 and 1 and `base`
the number of pipes created before `run_command` was entered (so that stage `k`
creates pipe `base + k`): the file of the last redirection of each direction,
else the pipe to the neighbouring stage, else the inherited stream. -/
def Child.wired (a b : Obj) (base : Nat) (c : Child) : Prop :=
  OpenOn c.proc.tbl 0
    (stdinAfter (if c.stage = 0 then a else .pipeRead (base + c.stage - 1)) c.toks)
  ∧ OpenOn c.proc.tbl 1
    (stdoutAfter (if c.hasNext then .pipeWrite (base + c.stage) else b) c.toks)

/-- The wiring property of a child: if all its `open` calls succeed it reaches
`exec`, with descriptors 0 and 1 as `Child.wired` says. -/
def Child.wiredIfOpens (a b : Obj) (base : Nat) (c : Child) : Prop :=
  c.opensOk → c.reachedExec ∧ c.wired a b base

/-! ## Vocabulary of the statements: stages of a segment -/

/-- The name of the built-in. -/
def cdName : CStr := ['c', 'd']

/-- The diagnostic of the built-in `cd`. -/
def cdDiag : Event := .printf "cd: failed to change directory\n" []

/-- The calls the built-in `cd` makes for the arguments `args` that follow `cd`. -/
def cdEvents (env : Env) (args : List CStr) : List Event :=
  match args with
  | [] => [cdDiag]
  | path :: _ =>
    if env.chdirOk path then [.chdir path true] else [.chdir path false, cdDiag]

/-- The stage texts of a segment: the pieces between the pipe delimiters. -/
def stagesOf (seg : List Char) : List (List Char) := seg.splitOnP (fun c => c == '|')

/-- A stage text that makes `run_command` fork: it holds a token and its first
token is not `cd`. -/
def isLive (s : List Char) : Bool :=
  match maximalRuns s with
  | [] => false
  | t :: _ => t != cdName

/-- Stage number, presence of a next stage and tokens of a child. -/
def Child.sig (c : Child) : Nat × Bool × List CStr := (c.stage, c.hasNext, c.toks)

/-- The children `run_command` forks for a list of stage texts, numbered from
`stage`: one per stage, up to the first stage that is empty or is `cd`. -/
def liveChildren (stage : Nat) : List (List Char) → List (Nat × Bool × List CStr)
  | [] => []
  | s :: rest =>
    if isLive s then (stage, !rest.isEmpty, maximalRuns s) :: liveChildren (stage + 1) rest
    else []

/-- The first stage that does not fork is a `cd`. -/
def stopsAtCd : List (List Char) → Bool
  | [] => false
  | s :: rest =>
    match maximalRuns s with
    | [] => false
    | t :: _ => if t = cdName then true else stopsAtCd rest

/-- The first argument of the stage text is `cd`. -/
def isCd (s : List Char) : Bool :=
  match maximalRuns s with
  | [] => false
  | t :: _ => t == cdName

/-- The stages of a pipeline that come before its first stage without any
argument (all of them when every stage holds an argument). -/
def stagesRun (l : List (List Char)) : List (List Char) :=
  l.takeWhile (fun s => !(maximalRuns s).isEmpty)

/-! ## File contents -/

/-- Modelled from the spec: the content a file has once `open` with flags `flags`
has succeeded on it, `old` being its content before (`none` when it did not
exist): the OS empties the file only when `O_TRUNC` is among the flags, and
creates it empty when it is absent and `O_CREATE` is given. -/
def contentAfterOpen (old : Option (List Char)) (flags : List OFlag) : Option (List Char) :=
  match old with
  | some c => if OFlag.O_TRUNC ∈ flags then some [] else some c
  | none => if OFlag.O_CREATE ∈ flags then some [] else none

/-- Modelled from the spec: the content of a file after the bytes `w` were
written through a freshly opened descriptor, whose offset starts at 0: `w`
overwrites the first bytes, the bytes behind it stay. -/
def contentAfterWrite (c w : List Char) : List Char := w ++ c.drop w.length

/-! ## Concrete inputs used by the examples -/

/-- The value of an outcome, if it is one. -/
def Res.toOption {α : Type} : Res α → Option α
  | .ok a => some a
  | .fault _ => none

/-- An environment in which every `open`, `chdir` and `exec` succeeds. -/
def envAll : Env :=
  { openOk := fun _ _ _ _ => true, chdirOk := fun _ => true, execOk := fun _ _ => true }

/-- Some initial content of the uninitialised array `char *argv[MAXARG]`. -/
def stackArgv : Argv := List.replicate MAXARG none

/-- A line of 32 one-letter arguments, 64 characters with its newline. -/
def line32 : List Char := (List.replicate 31 ['a', ' ']).flatten ++ ['a', '\n']

/-- The buffer and array `split` produces for the stage `echo hi > out.txt`. -/
def echoMem : Mem := "echo".toList ++ NUL :: "hi".toList ++ NUL :: ">".toList
  ++ NUL :: "out.txt".toList ++ [NUL, NUL]

/-- The argument array for `echoMem`: `echo`, `hi`, `>`, `out.txt`, sentinel. -/
def echoArgv : Argv := [some 0, some 5, some 8, some 10, none, none]


/-! ## Lemmas on the buffer primitives -/

theorem getElem?_mid (pre : List Char) (c : Char) (t : List Char) :
    (pre ++ c :: t)[pre.length]? = some c := by
  rw [List.getElem?_append_right (Nat.le_refl _)]
  simp

theorem set_mid (pre : List Char) (c d : Char) (t : List Char) :
    (pre ++ c :: t).set pre.length d = pre ++ d :: t := by
  simp

theorem cstrOf_append (t b : List Char) (h : NUL ∉ t) : cstrOf (t ++ NUL :: b) = some t := by
  induction t with
  | nil => simp [cstrOf]
  | cons c t ih =>
    have hc : c ≠ NUL := fun e => h (by simp [e])
    have ht : NUL ∉ t := fun e => h (by simp [e])
    simp [cstrOf, hc, ih ht]

theorem cstr_of_pointsTo {mem : Mem} {p : Nat} {t : CStr} (h : PointsTo mem p t) :
    cstr mem p = some t := by
  obtain ⟨a, b, rfl, rfl, hn⟩ := h
  simp [cstr, cstrOf_append _ _ hn]

theorem split_ws_spec (ws : List Char) : ∀ (pre rest : List Char) (fuel : Nat),
    (∀ c ∈ ws, isWs c = true) → (∃ c t, rest = c :: t ∧ isWs c = false) → ws.length < fuel →
    split_ws fuel (pre ++ ws ++ rest) pre.length
      = .ok (pre ++ List.replicate ws.length NUL ++ rest, pre.length + ws.length) := by
  induction ws with
  | nil =>
    intro pre rest fuel _ hrest hf
    obtain ⟨c, t, rfl, hc⟩ := hrest
    obtain ⟨f, rfl⟩ : ∃ f, fuel = f + 1 := ⟨fuel - 1, by simp at hf; omega⟩
    have hc' : (c == ' ' || c == '\n' || c == '\t') = false := hc
    rw [List.append_nil, split_ws, getElem?_mid]
    simp only [hc']
    simp
  | cons w ws ih =>
    intro pre rest fuel hws hrest hf
    obtain ⟨f, rfl⟩ : ∃ f, fuel = f + 1 := ⟨fuel - 1, by simp at hf; omega⟩
    have hw : (w == ' ' || w == '\n' || w == '\t') = true := hws w (by simp)
    have h1 : (pre ++ (w :: ws) ++ rest)[pre.length]? = some w := by
      rw [List.append_assoc, List.cons_append, getElem?_mid]
    have h2 : (pre ++ (w :: ws) ++ rest).set pre.length NUL = (pre ++ [NUL]) ++ ws ++ rest := by
      simp
    rw [split_ws, h1]
    simp only [hw, if_true, h2]
    have := ih (pre ++ [NUL]) rest f (fun c hc => hws c (by simp [hc])) hrest
      (by simp at hf; omega)
    simp only [List.length_append, List.length_singleton] at this
    rw [this]
    simp [List.replicate_succ, Nat.add_comm, Nat.add_left_comm, Nat.add_assoc]

theorem split_tok_spec (tok : List Char) : ∀ (pre rest : List Char) (fuel : Nat),
    (∀ c ∈ tok, c ≠ NUL ∧ isWs c = false) →
    (∃ c t, rest = c :: t ∧ (c = NUL ∨ isWs c = true)) → tok.length < fuel →
    split_tok fuel (pre ++ tok ++ rest) pre.length = .ok (pre.length + tok.length) := by
  induction tok with
  | nil =>
    intro pre rest fuel _ hrest hf
    obtain ⟨c, t, rfl, hc⟩ := hrest
    obtain ⟨f, rfl⟩ : ∃ f, fuel = f + 1 := ⟨fuel - 1, by simp at hf; omega⟩
    have hc' : (c != NUL && c != ' ' && c != '\n' && c != '\t') = false := by
      rcases hc with rfl | hc
      · simp
      · simp only [isWs, Bool.or_eq_true, beq_iff_eq] at hc
        rcases hc with (rfl | rfl) | rfl <;> simp
    rw [List.append_nil, split_tok, getElem?_mid]
    simp only [hc']
    simp
  | cons w tok ih =>
    intro pre rest fuel htok hrest hf
    obtain ⟨f, rfl⟩ : ∃ f, fuel = f + 1 := ⟨fuel - 1, by simp at hf; omega⟩
    have hw : (w != NUL && w != ' ' && w != '\n' && w != '\t') = true := by
      obtain ⟨h1, h2⟩ := htok w (by simp)
      simp only [isWs, Bool.or_eq_false_iff, beq_eq_false_iff_ne] at h2
      simp [h1, h2.1.1, h2.1.2, h2.2]
    have h1 : (pre ++ (w :: tok) ++ rest)[pre.length]? = some w := by
      rw [List.append_assoc, List.cons_append, getElem?_mid]
    have h2 : pre ++ (w :: tok) ++ rest = (pre ++ [w]) ++ tok ++ rest := by simp
    rw [split_tok, h1]
    simp only [hw, if_true]
    rw [h2]
    have := ih (pre ++ [w]) rest f (fun c hc => htok c (by simp [hc])) hrest
      (by simp at hf; omega)
    simp only [List.length_append, List.length_singleton] at this
    rw [this]
    simp [Nat.add_comm, Nat.add_left_comm, Nat.add_assoc]


/-! ## Lemmas on runs of characters -/

theorem span_decomp (p : Char → Bool) (l : List Char) :
    ∃ a b, l = a ++ b ∧ (∀ c ∈ a, p c = true) ∧
      (b = [] ∨ ∃ x t, b = x :: t ∧ p x = false) ∧ a = l.takeWhile p := by
  induction l with
  | nil => exact ⟨[], [], rfl, by simp, Or.inl rfl, rfl⟩
  | cons x t ih =>
    by_cases hx : p x = true
    · obtain ⟨a, b, hab, ha, hb, hta⟩ := ih
      refine ⟨x :: a, b, by simp [hab], ?_, hb, by simp [List.takeWhile_cons, hx, hta]⟩
      intro c hc
      rcases List.mem_cons.mp hc with rfl | hc
      · exact hx
      · exact ha c hc
    · have hx' : p x = false := by simpa using hx
      exact ⟨[], x :: t, rfl, by simp, Or.inr ⟨x, t, rfl, hx'⟩, by simp [List.takeWhile_cons, hx']⟩

theorem maximalRuns_nil : maximalRuns [] = [] := by
  simp [maximalRuns]

theorem maximalRuns_ws (ws r : List Char) (h : ∀ c ∈ ws, isWs c = true) :
    maximalRuns (ws ++ r) = maximalRuns r := by
  induction ws with
  | nil => rfl
  | cons w ws ih =>
    have hw : isWs w = true := h w (by simp)
    have := ih (fun c hc => h c (by simp [hc]))
    simp only [maximalRuns] at this ⊢
    simp [List.splitOnP_cons, hw, this]

theorem maximalRuns_tok (tok b : List Char) (hne : tok ≠ []) (h : ∀ c ∈ tok, isWs c = false)
    (hb : b = [] ∨ ∃ w t, b = w :: t ∧ isWs w = true) :
    maximalRuns (tok ++ b) = tok :: maximalRuns b := by
  have h' : ∀ x ∈ tok, ¬ isWs x = true := fun x hx => by simp [h x hx]
  have hemp : tok.isEmpty = false := by cases tok <;> simp_all
  rcases hb with rfl | ⟨w, t, rfl, hw⟩
  · simp [maximalRuns, List.splitOnP_eq_single _ _ h', hemp]
  · simp [maximalRuns, List.splitOnP_first _ _ h' w hw, hw, hemp]

theorem maximalRuns_all_ws (ws : List Char) (h : ∀ c ∈ ws, isWs c = true) :
    maximalRuns ws = [] := by
  have := maximalRuns_ws ws [] h
  simpa [maximalRuns_nil] using this

theorem zeroWs_ws (ws : List Char) (h : ∀ c ∈ ws, isWs c = true) :
    zeroWs ws = List.replicate ws.length NUL := by
  induction ws with
  | nil => rfl
  | cons w ws ih =>
    have hw : isWs w = true := h w (by simp)
    have := ih (fun c hc => h c (by simp [hc]))
    simp only [zeroWs] at this
    simp [zeroWs, hw, this, List.replicate_succ]

theorem zeroWs_tok (tok : List Char) (h : ∀ c ∈ tok, isWs c = false) : zeroWs tok = tok := by
  induction tok with
  | nil => rfl
  | cons w tok ih =>
    have hw : isWs w = false := h w (by simp)
    have := ih (fun c hc => h c (by simp [hc]))
    simp only [zeroWs] at this
    simp [zeroWs, hw, this]

theorem zeroWs_append (a b : List Char) : zeroWs (a ++ b) = zeroWs a ++ zeroWs b := by
  simp [zeroWs]

theorem zeroWs_length (a : List Char) : (zeroWs a).length = a.length := by
  simp [zeroWs]

/-- The shape of a non-empty text: leading separators, then a run, then a rest
that is empty or starts with a separator. -/
theorem body_decomp (body : List Char) :
    ∃ ws tok rest, body = ws ++ tok ++ rest ∧ ws = body.takeWhile isWs ∧
      (∀ c ∈ ws, isWs c = true) ∧ (∀ c ∈ tok, isWs c = false) ∧
      (rest = [] ∨ ∃ w t, rest = w :: t ∧ isWs w = true) ∧ (tok = [] → rest = []) := by
  obtain ⟨ws, r1, h1, hws, hr1, hws'⟩ := span_decomp isWs body
  obtain ⟨tok, rest, h2, htok, hrest, htok'⟩ := span_decomp (fun c => !isWs c) r1
  refine ⟨ws, tok, rest, by simp [h1, h2], hws', hws, ?_, ?_, ?_⟩
  · intro c hc
    simpa using htok c hc
  · rcases hrest with h | ⟨x, t, h, hx⟩
    · exact Or.inl h
    · exact Or.inr ⟨x, t, h, by simpa using hx⟩
  · intro ht
    subst ht
    rcases hr1 with h | ⟨x, t, h, hx⟩
    · simpa [h] using h2.symm
    · subst h
      simp [List.takeWhile_cons, hx] at htok'


/-! ## The outer loop of `split` -/

theorem isWs_NUL : isWs NUL = false := by decide

theorem split_loop_nil (f : Nat) (pre post : List Char) (argv : Argv) (n : Nat) :
    split_loop (f + 1) (pre ++ NUL :: post) pre.length argv n = .ok (pre ++ NUL :: post, argv, n) := by
  rw [split_loop, getElem?_mid]
  simp

/-- One iteration of the outer loop on a text that starts with separators `ws`
followed by the run `tok`. -/
theorem split_loop_step (f : Nat) (pre ws tok rest post : List Char) (argv : Argv) (n : Nat)
    (hws : ∀ c ∈ ws, isWs c = true) (htok : ∀ c ∈ tok, c ≠ NUL ∧ isWs c = false)
    (hrest : rest = [] ∨ ∃ w t, rest = w :: t ∧ isWs w = true)
    (htr : tok = [] → rest = []) (hne : ws ++ tok ≠ []) (hws0 : NUL ∉ ws)
    (hn : tok ≠ [] → n < argv.length) :
    split_loop (f + 1) (pre ++ (ws ++ tok ++ rest) ++ NUL :: post) pre.length argv n
      = split_loop f ((pre ++ List.replicate ws.length NUL ++ tok) ++ rest ++ NUL :: post)
          (pre ++ List.replicate ws.length NUL ++ tok).length
          (if tok = [] then argv else argv.set n (some (pre.length + ws.length)))
          (if tok = [] then n else n + 1) := by
  -- the character under the pointer on entry
  obtain ⟨c, bt, hcb⟩ : ∃ c bt, ws ++ tok = c :: bt := by
    cases h : ws ++ tok with
    | nil => exact absurd h hne
    | cons c bt => exact ⟨c, bt, rfl⟩
  have hc : c ≠ NUL := by
    have hmem : c ∈ ws ++ tok := by rw [hcb]; simp
    rcases List.mem_append.mp hmem with h | h
    · exact fun e => hws0 (e ▸ h)
    · exact (htok c h).1
  have hget : (pre ++ (ws ++ tok ++ rest) ++ NUL :: post)[pre.length]? = some c := by
    have : pre ++ (ws ++ tok ++ rest) ++ NUL :: post = pre ++ c :: (bt ++ rest ++ NUL :: post) := by
      rw [hcb]; simp
    rw [this, getElem?_mid]
  -- the rest of the buffer behind the separators starts with a non-separator
  have hr1 : ∃ x t, tok ++ rest ++ NUL :: post = x :: t ∧ isWs x = false := by
    cases tok with
    | nil => exact ⟨NUL, post, by simp [htr rfl], isWs_NUL⟩
    | cons x t => exact ⟨x, t ++ rest ++ NUL :: post, by simp, (htok x (by simp)).2⟩
  have e1 : split_ws ((pre ++ (ws ++ tok ++ rest) ++ NUL :: post).length + 1)
      (pre ++ (ws ++ tok ++ rest) ++ NUL :: post) pre.length
      = .ok (pre ++ List.replicate ws.length NUL ++ (tok ++ rest ++ NUL :: post),
             pre.length + ws.length) := by
    have := split_ws_spec ws pre (tok ++ rest ++ NUL :: post)
      ((pre ++ (ws ++ tok ++ rest) ++ NUL :: post).length + 1) hws hr1 (by simp; omega)
    simpa [List.append_assoc] using this
  -- the rest of the buffer behind the run starts with a separator or the terminator
  have hr2 : ∃ x t, rest ++ NUL :: post = x :: t ∧ (x = NUL ∨ isWs x = true) := by
    rcases hrest with rfl | ⟨w, t, rfl, hw⟩
    · exact ⟨NUL, post, rfl, Or.inl rfl⟩
    · exact ⟨w, t ++ NUL :: post, by simp, Or.inr hw⟩
  have e2 : split_tok ((pre ++ List.replicate ws.length NUL
        ++ (tok ++ rest ++ NUL :: post)).length + 1)
      (pre ++ List.replicate ws.length NUL ++ (tok ++ rest ++ NUL :: post))
      (pre.length + ws.length)
      = .ok (pre ++ List.replicate ws.length NUL ++ tok).length := by
    have := split_tok_spec tok (pre ++ List.replicate ws.length NUL) (rest ++ NUL :: post)
      ((pre ++ List.replicate ws.length NUL ++ (tok ++ rest ++ NUL :: post)).length + 1)
      htok hr2 (by simp; omega)
    simpa [List.append_assoc, Nat.add_assoc] using this
  obtain ⟨x, t, hxt, hx⟩ := hr1
  have hget1 : (pre ++ List.replicate ws.length NUL ++ (tok ++ rest ++ NUL :: post))[
      pre.length + ws.length]? = some x := by
    have := getElem?_mid (pre ++ List.replicate ws.length NUL) x t
    rw [hxt]
    simpa using this
  have hmem1 : pre ++ List.replicate ws.length NUL ++ (tok ++ rest ++ NUL :: post)
      = (pre ++ List.replicate ws.length NUL ++ tok) ++ rest ++ NUL :: post := by
    simp [List.append_assoc]
  rw [split_loop, hget]
  simp only [bne_iff_ne, ne_eq, hc, not_false_eq_true, if_true, e1, hget1]
  cases tok with
  | nil =>
    have hx0 : x = NUL := by
      simp [htr rfl] at hxt
      exact hxt.1.symm
    simp only [hx0, not_true_eq_false, if_false, e2, if_true]
    rw [hmem1]
  | cons y u =>
    have hxy : x = y := by
      simp at hxt
      exact hxt.1.symm
    have hy : y ≠ NUL := (htok y (by simp)).1
    have hlt : n < argv.length := hn (by simp)
    simp only [hxy, hy, not_false_eq_true, if_true, argv_store, hlt, e2, reduceCtorEq, if_false]
    rw [hmem1]


theorem take_set_succ (argv : Argv) (n : Nat) (v : Option Nat) (h : n < argv.length) :
    (argv.set n v).take (n + 1) = argv.take n ++ [v] := by
  induction argv generalizing n with
  | nil => simp at h
  | cons a t ih =>
    cases n with
    | zero => simp
    | succ m => simpa using ih m (by simpa using h)

theorem drop_set_gt (argv : Argv) (n m : Nat) (v : Option Nat) (h : n < m) :
    (argv.set n v).drop m = argv.drop m := by
  induction argv generalizing n m with
  | nil => simp
  | cons a t ih =>
    cases m with
    | zero => omega
    | succ m' =>
      cases n with
      | zero => simp
      | succ n' => simpa using ih n' m' (by omega)

/-- Full description of the outer loop of `split` on a text `body` without
terminator that is followed by one. -/
theorem split_loop_spec : ∀ (k : Nat) (body : List Char), body.length ≤ k →
    ∀ (pre post : List Char) (argv : Argv) (n fuel : Nat),
    NUL ∉ body → body.length < fuel → n + (maximalRuns body).length ≤ argv.length →
    ∃ ptrs : List Nat,
      split_loop fuel (pre ++ body ++ NUL :: post) pre.length argv n
        = .ok (pre ++ zeroWs body ++ NUL :: post,
               argv.take n ++ ptrs.map some ++ argv.drop (n + ptrs.length), n + ptrs.length)
      ∧ List.Forall₂ (PointsTo (pre ++ zeroWs body ++ NUL :: post)) ptrs (maximalRuns body)
      ∧ (∀ p ∈ ptrs, pre.length + (body.takeWhile isWs).length ≤ p)
      ∧ (∀ p, ptrs.head? = some p → p = pre.length + (body.takeWhile isWs).length)
      ∧ ptrs.Pairwise (fun a b => a < b) := by
  intro k
  induction k with
  | zero =>
    intro body hk pre post argv n fuel _ hf _
    have hb : body = [] := List.length_eq_zero.mp (Nat.le_zero.mp hk)
    subst hb
    obtain ⟨f, rfl⟩ : ∃ f, fuel = f + 1 := ⟨fuel - 1, by omega⟩
    refine ⟨[], ?_, ?_, by simp, by simp, by simp⟩
    · simpa [zeroWs] using split_loop_nil f pre post argv n
    · simp [maximalRuns_nil]
  | succ k ih =>
    intro body hk pre post argv n fuel hnul hf hcap
    obtain ⟨f, rfl⟩ : ∃ f, fuel = f + 1 := ⟨fuel - 1, by omega⟩
    by_cases hb : body = []
    · subst hb
      refine ⟨[], ?_, ?_, by simp, by simp, by simp⟩
      · simpa [zeroWs] using split_loop_nil f pre post argv n
      · simp [maximalRuns_nil]
    obtain ⟨ws, tok, rest, hbody, hwsdef, hws, htok, hrest, htr⟩ := body_decomp body
    have hnul_ws : NUL ∉ ws := fun h => hnul (by rw [hbody]; simp [h])
    have hnul_tok : NUL ∉ tok := fun h => hnul (by rw [hbody]; simp [h])
    have hnul_rest : NUL ∉ rest := fun h => hnul (by rw [hbody]; simp [h])
    have htok' : ∀ c ∈ tok, c ≠ NUL ∧ isWs c = false :=
      fun c hc => ⟨fun e => hnul_tok (e ▸ hc), htok c hc⟩
    have hne : ws ++ tok ≠ [] := by
      intro h
      obtain ⟨h1, h2⟩ := List.append_eq_nil.mp h
      exact hb (by rw [hbody, h1, h2, htr h2]; rfl)
    have hlen : body.length = ws.length + tok.length + rest.length := by
      rw [hbody]; simp [Nat.add_assoc]
    have hpos : 0 < ws.length + tok.length := by
      rcases Nat.eq_zero_or_pos (ws.length + tok.length) with h | h
      · exfalso; apply hne
        have h1 : ws = [] := List.length_eq_zero.mp (by omega)
        have h2 : tok = [] := List.length_eq_zero.mp (by omega)
        rw [h1, h2]; rfl
      · exact h
    have hruns : maximalRuns body = if tok = [] then [] else tok :: maximalRuns rest := by
      rw [hbody, List.append_assoc, maximalRuns_ws _ _ hws]
      by_cases ht : tok = []
      · simp [ht, htr ht, maximalRuns_nil]
      · simp only [ht, if_false]
        exact maximalRuns_tok tok rest ht htok hrest
    have hzero : zeroWs body = List.replicate ws.length NUL ++ tok ++ zeroWs rest := by
      rw [hbody, zeroWs_append, zeroWs_append, zeroWs_ws ws hws, zeroWs_tok tok htok]
    have hmemeq : (pre ++ List.replicate ws.length NUL ++ tok) ++ zeroWs rest ++ NUL :: post
        = pre ++ zeroWs body ++ NUL :: post := by
      rw [hzero]; simp [List.append_assoc]
    have hstep := split_loop_step f pre ws tok rest post argv n hws htok' hrest htr hne hnul_ws
      (by
        intro ht
        rw [hruns] at hcap
        simp only [ht, if_false, List.length_cons] at hcap
        omega)
    rw [← hbody] at hstep
    by_cases ht : tok = []
    · -- the text consists of separators only
      subst ht
      have hr : rest = [] := htr rfl
      subst hr
      obtain ⟨f', rfl⟩ : ∃ f', f = f' + 1 := ⟨f - 1, by
        simp only [List.length_nil, Nat.add_zero] at hlen hpos; omega⟩
      refine ⟨[], ?_, ?_, by simp, by simp, by simp⟩
      · rw [hstep]
        simp only [if_true, List.append_nil]
        rw [split_loop_nil, hzero]
        simp [zeroWs]
      · simp [hruns]
    · -- a run `tok` is stored, then the loop goes on with `rest`
      have hcap' : (n + 1) + (maximalRuns rest).length
          ≤ (argv.set n (some (pre.length + ws.length))).length := by
        rw [hruns] at hcap
        simp only [ht, if_false, List.length_cons] at hcap
        simp only [List.length_set]
        omega
      have hnlt : n < argv.length := by
        rw [hruns] at hcap
        simp only [ht, if_false, List.length_cons] at hcap
        omega
      obtain ⟨ptrs, hrun, hpts, hlow, _, hsorted⟩ :=
        ih rest (by omega) (pre ++ List.replicate ws.length NUL ++ tok) post
          (argv.set n (some (pre.length + ws.length))) (n + 1) f hnul_rest (by omega) hcap'
      refine ⟨(pre.length + ws.length) :: ptrs, ?_, ?_, ?_, ?_, ?_⟩
      · rw [hstep]
        simp only [ht, if_false]
        rw [hrun, hmemeq, take_set_succ _ _ _ hnlt, drop_set_gt _ _ _ _ (by omega)]
        simp [List.append_assoc, Nat.add_comm, Nat.add_left_comm]
      · rw [hruns]
        simp only [ht, if_false]
        refine List.Forall₂.cons ?_ ?_
        · have hz : ∃ b, zeroWs rest ++ NUL :: post = NUL :: b := by
            rcases hrest with rfl | ⟨w, t, rfl, hw⟩
            · exact ⟨post, rfl⟩
            · exact ⟨zeroWs t ++ NUL :: post, by simp [zeroWs, hw]⟩
          obtain ⟨b, hb'⟩ := hz
          refine ⟨pre ++ List.replicate ws.length NUL, b, ?_, by simp, hnul_tok⟩
          rw [← hmemeq, List.append_assoc _ (zeroWs rest), hb']
        · rw [← hmemeq]; exact hpts
      · intro p hp
        rcases List.mem_cons.mp hp with rfl | hp
        · rw [← hwsdef]
        · have := hlow p hp
          simp only [List.length_append, List.length_replicate] at this
          rw [← hwsdef]; omega
      · intro p hp
        simp only [List.head?_cons, Option.some.injEq] at hp
        rw [← hp, ← hwsdef]
      · refine List.Pairwise.cons ?_ hsorted
        intro p hp
        have := hlow p hp
        simp only [List.length_append, List.length_replicate] at this
        have : 0 < tok.length := List.length_pos.mpr ht
        omega


/-! ## The function `split` -/

theorem argvPtrs_append (ptrs : List Nat) (rest : Argv) :
    argvPtrs (ptrs.map some ++ none :: rest) = ptrs := by
  induction ptrs with
  | nil => rfl
  | cons p t ih => simp [argvPtrs, ih]

theorem set_append_length (ptrs : List Nat) (rest : Argv) (h : rest ≠ []) :
    (ptrs.map some ++ rest).set ptrs.length none = ptrs.map some ++ none :: rest.drop 1 := by
  induction ptrs with
  | nil =>
    cases rest with
    | nil => exact absurd rfl h
    | cons a t => simp
  | cons p t ih => simpa using ih

/-- Full description of `split` on a text `body` without terminator that is
followed by one, when the array has room for the pointers and the sentinel. -/
theorem split_spec (pre body post : List Char) (argv : Argv) (hnul : NUL ∉ body)
    (hcap : (maximalRuns body).length < argv.length) :
    ∃ ptrs : List Nat,
      split (pre ++ body ++ NUL :: post) pre.length argv
        = .ok (pre ++ zeroWs body ++ NUL :: post,
               ptrs.map some ++ none :: argv.drop (ptrs.length + 1))
      ∧ List.Forall₂ (PointsTo (pre ++ zeroWs body ++ NUL :: post)) ptrs (maximalRuns body)
      ∧ (∀ p ∈ ptrs, pre.length + (body.takeWhile isWs).length ≤ p)
      ∧ (∀ p, ptrs.head? = some p → p = pre.length + (body.takeWhile isWs).length)
      ∧ ptrs.Pairwise (fun a b => a < b) := by
  obtain ⟨ptrs, hrun, hpts, hlow, hhead, hsorted⟩ :=
    split_loop_spec body.length body (Nat.le_refl _) pre post argv 0
      ((pre ++ body ++ NUL :: post).length + 1) hnul (by simp; omega) (by omega)
  have hlen : ptrs.length = (maximalRuns body).length := hpts.length_eq
  refine ⟨ptrs, ?_, hpts, hlow, hhead, hsorted⟩
  have hne : argv.drop ptrs.length ≠ [] := by
    intro h
    have := congrArg List.length h
    simp at this
    omega
  rw [split, hrun]
  simp only [List.take_zero, List.nil_append, Nat.zero_add, argv_store, List.length_append,
    List.length_map, List.length_drop]
  rw [if_pos (by omega), set_append_length _ _ hne]
  simp [Nat.add_comm]

theorem map_cstr_of_forall₂ {mem : Mem} {ptrs : List Nat} {toks : List CStr}
    (h : List.Forall₂ (PointsTo mem) ptrs toks) : ptrs.map (cstr mem) = toks.map some := by
  induction h with
  | nil => rfl
  | cons hp _ ih => simp [cstr_of_pointsTo hp, ih]

theorem maximalRuns_ne_nil (s : List Char) : [] ∉ maximalRuns s := by
  simp [maximalRuns]


/-! ## Descriptor tables -/

theorem lowestFree_le (tbl : FdTable) : lowestFree tbl ≤ tbl.length := by
  induction tbl with
  | nil => simp [lowestFree]
  | cons a t ih =>
    cases a with
    | none => simp [lowestFree]
    | some o => simpa [lowestFree] using ih

theorem lowestFree_free (tbl : FdTable) (o : Obj) : ¬ OpenOn tbl (lowestFree tbl) o := by
  induction tbl with
  | nil => simp [OpenOn, lowestFree]
  | cons a t ih =>
    cases a with
    | none => simp [OpenOn, lowestFree]
    | some x => simpa [OpenOn, lowestFree] using ih

theorem lowestFree_open_below (tbl : FdTable) (j : Nat) (h : j < lowestFree tbl) :
    ∃ o, OpenOn tbl j o := by
  induction tbl generalizing j with
  | nil => simp [lowestFree] at h
  | cons a t ih =>
    cases a with
    | none => simp [lowestFree] at h
    | some x =>
      cases j with
      | zero => exact ⟨x, by simp [OpenOn]⟩
      | succ j =>
        obtain ⟨o, ho⟩ := ih j (by simpa [lowestFree] using h)
        exact ⟨o, by simpa [OpenOn] using ho⟩

theorem lowestFree_ge (tbl : FdTable) (m : Nat) (h : ∀ j < m, ∃ o, OpenOn tbl j o) :
    m ≤ lowestFree tbl := by
  by_contra hlt
  obtain ⟨o, ho⟩ := h (lowestFree tbl) (by omega)
  exact lowestFree_free tbl o ho

theorem lowestFree_eq (tbl : FdTable) (m : Nat) (h : ∀ j < m, ∃ o, OpenOn tbl j o)
    (hm : ∀ o, ¬ OpenOn tbl m o) : lowestFree tbl = m := by
  have h1 := lowestFree_ge tbl m h
  by_contra hne
  obtain ⟨o, ho⟩ := lowestFree_open_below tbl m (by omega)
  exact hm o ho

theorem fdalloc_fd (tbl : FdTable) (o : Obj) : (fdalloc tbl o).2 = lowestFree tbl := rfl

theorem fdalloc_new (tbl : FdTable) (o : Obj) : OpenOn (fdalloc tbl o).1 (fdalloc tbl o).2 o := by
  simp only [fdalloc, OpenOn]
  by_cases h : lowestFree tbl < tbl.length
  · simp [h, List.getElem?_set]
  · have : lowestFree tbl = tbl.length := by
      have := lowestFree_le tbl; omega
    simp [this]

theorem fdalloc_other (tbl : FdTable) (o : Obj) (j : Nat) (h : j ≠ lowestFree tbl) :
    (fdalloc tbl o).1[j]? = tbl[j]? := by
  simp only [fdalloc]
  by_cases hl : lowestFree tbl < tbl.length
  · simp only [hl, if_true]
    rw [List.getElem?_set]
    simp [Ne.symm h]
  · have hle : lowestFree tbl = tbl.length := by
      have := lowestFree_le tbl; omega
    simp only [hl, if_false]
    rcases Nat.lt_or_ge j tbl.length with hj | hj
    · rw [List.getElem?_append_left hj]
    · have hj' : tbl.length < j := by omega
      rw [List.getElem?_eq_none (by simp; omega), List.getElem?_eq_none (by omega)]

theorem fdalloc_keeps (tbl : FdTable) (o x : Obj) (j : Nat) (h : OpenOn tbl j x) :
    OpenOn (fdalloc tbl o).1 j x := by
  have hne : j ≠ lowestFree tbl := fun e => lowestFree_free tbl x (e ▸ h)
  simpa [OpenOn, fdalloc_other tbl o j hne] using h

theorem close_other (tbl : FdTable) (fd j : Nat) (h : j ≠ fd) :
    (sys_close tbl fd)[j]? = tbl[j]? := by
  simp only [sys_close]
  rw [List.getElem?_set]
  simp [Ne.symm h]

theorem close_closed (tbl : FdTable) (fd : Nat) (o : Obj) : ¬ OpenOn (sys_close tbl fd) fd o := by
  simp only [sys_close, OpenOn]
  rw [List.getElem?_set]
  by_cases h : fd < tbl.length <;> simp [h]

theorem close_keeps (tbl : FdTable) (fd j : Nat) (x : Obj) (h : j ≠ fd) (hx : OpenOn tbl j x) :
    OpenOn (sys_close tbl fd) j x := by
  simpa [OpenOn, close_other tbl fd j h] using hx

/-- The idiom `close(std); dup(fd); close(fd);` for `std` 0 or 1 moves the object
under `fd` to `std` when every descriptor below `std` is open. -/
theorem rebind_std (tbl : FdTable) (std fd : Nat) (o : Obj)
    (hbelow : ∀ j < std, ∃ x, OpenOn tbl j x) (hfd : OpenOn tbl fd o) (hne : fd ≠ std) :
    OpenOn (sys_close (sys_dup (sys_close tbl std) fd).1 fd) std o
    ∧ ∀ j, j ≠ std → j ≠ fd →
        (sys_close (sys_dup (sys_close tbl std) fd).1 fd)[j]? = tbl[j]? := by
  have h1 : OpenOn (sys_close tbl std) fd o := close_keeps tbl std fd o hne hfd
  have hlow : lowestFree (sys_close tbl std) = std := by
    apply lowestFree_eq
    · intro j hj
      obtain ⟨x, hx⟩ := hbelow j hj
      exact ⟨x, close_keeps tbl std j x (by omega) hx⟩
    · exact fun x => close_closed tbl std x
  have hdup : (sys_dup (sys_close tbl std) fd).1 = (fdalloc (sys_close tbl std) o).1 := by
    simp only [sys_dup]
    rw [show (sys_close tbl std)[fd]? = some (some o) from h1]
  rw [hdup]
  have hnew := fdalloc_new (sys_close tbl std) o
  rw [fdalloc_fd, hlow] at hnew
  refine ⟨close_keeps _ fd std o (Ne.symm hne) hnew, ?_⟩
  intro j hj1 hj2
  rw [close_other _ fd j hj2, fdalloc_other _ o j (by rw [hlow]; exact hj1),
    close_other _ std j hj1]


/-! ## `redirect_io` and the standard descriptors -/

theorem redirect_to_std (env : Env) (stage i : Nat) (p p1 : Proc) (path : CStr)
    (flags : List OFlag) (std : Nat) (x0 y0 : Obj) (hstd : std < 2)
    (h0 : OpenOn p.tbl 0 x0) (h1 : OpenOn p.tbl 1 y0)
    (hr : redirect_to env stage i p path flags std = (p1, true)) :
    OpenOn p1.tbl std (.file path flags) ∧ ∀ j < 2, j ≠ std → p1.tbl[j]? = p.tbl[j]? := by
  unfold redirect_to at hr
  by_cases hopen : env.openOk stage i path flags = true
  · simp only [hopen, if_true, Prod.mk.injEq, and_true] at hr
    subst hr
    have hbelow : ∀ j < 2, ∃ x, OpenOn p.tbl j x := by
      intro j hj
      rcases (by omega : j = 0 ∨ j = 1) with rfl | rfl
      · exact ⟨x0, h0⟩
      · exact ⟨y0, h1⟩
    have hge : 2 ≤ (fdalloc p.tbl (.file path flags)).2 := lowestFree_ge _ _ hbelow
    obtain ⟨ha, hb⟩ := rebind_std (fdalloc p.tbl (.file path flags)).1 std
      (fdalloc p.tbl (.file path flags)).2 (.file path flags)
      (fun j hj => by
        obtain ⟨x, hx⟩ := hbelow j (by omega)
        exact ⟨x, fdalloc_keeps _ _ _ _ hx⟩)
      (fdalloc_new _ _) (by omega)
    refine ⟨ha, ?_⟩
    intro j hj hne
    have := hb j hne (by omega)
    simp only [Proc.close, Proc.dup]
    rw [this, fdalloc_other _ _ _ (by rw [← fdalloc_fd p.tbl (.file path flags)]; omega)]
  · simp [hopen] at hr

theorem redirect_to_fail (env : Env) (stage i : Nat) (p p1 : Proc) (path : CStr)
    (flags : List OFlag) (std : Nat)
    (hr : redirect_to env stage i p path flags std = (p1, false)) :
    p1.tbl = p.tbl ∧ p1.events = p.events ++ [.open path flags none] := by
  unfold redirect_to at hr
  by_cases hopen : env.openOk stage i path flags = true
  · simp [hopen] at hr
  · simp only [hopen, Bool.false_eq_true, if_false, Prod.mk.injEq, and_true] at hr
    subst hr
    exact ⟨rfl, rfl⟩

theorem drop_of_getElem? {α : Type} (l : List α) (i : Nat) (a : α) (h : l[i]? = some a) :
    l.drop i = a :: l.drop (i + 1) := by
  induction l generalizing i with
  | nil => simp at h
  | cons x t ih =>
    cases i with
    | zero => simp at h; simp [h]
    | succ j => simpa using ih j (by simpa using h)

theorem argvToks_cons_some (mem : Mem) (s : Nat) (rest : Argv) (t : CStr)
    (h : cstr mem s = some t) : argvToks mem (some s :: rest) = t :: argvToks mem rest := by
  simp [argvToks, argvPtrs, h]

theorem argvToks_cons_none (mem : Mem) (rest : Argv) : argvToks mem (none :: rest) = [] := by
  simp [argvToks, argvPtrs]

theorem lastRedir_skip (op tok : CStr) (rest : List CStr) (h : tok ≠ op) :
    lastRedir op (tok :: rest) = lastRedir op rest := by
  cases rest with
  | nil => simp [lastRedir]
  | cons b r =>
    simp only [lastRedir, h, if_false]
    cases lastRedir op (b :: r) <;> rfl

theorem lastRedir_single (op tok : CStr) : lastRedir op [tok] = none := rfl

theorem stdinAfter_in (x0 : Obj) (path : CStr) (rest : List CStr) :
    stdinAfter x0 (['<'] :: path :: rest) = stdinAfter (.file path [.O_RDONLY]) (path :: rest) := by
  simp only [stdinAfter, lastRedir]
  cases lastRedir ['<'] (path :: rest) <;> simp

theorem stdoutAfter_out (y0 : Obj) (path : CStr) (rest : List CStr) :
    stdoutAfter y0 (['>'] :: path :: rest)
      = stdoutAfter (.file path [.O_CREATE, .O_WRONLY]) (path :: rest) := by
  simp only [stdoutAfter, lastRedir]
  cases lastRedir ['>'] (path :: rest) <;> simp

theorem stdinAfter_skip (x0 : Obj) (tok : CStr) (rest : List CStr) (h : tok ≠ ['<']) :
    stdinAfter x0 (tok :: rest) = stdinAfter x0 rest := by
  simp only [stdinAfter, lastRedir_skip _ _ _ h]

theorem stdoutAfter_skip (y0 : Obj) (tok : CStr) (rest : List CStr) (h : tok ≠ ['>']) :
    stdoutAfter y0 (tok :: rest) = stdoutAfter y0 rest := by
  simp only [stdoutAfter, lastRedir_skip _ _ _ h]


/-- Case analysis of one iteration of the loop of `redirect_io` that ends well. -/
theorem redirect_io_loop_cases {env : Env} {stage : Nat} {mem : Mem} {fuel i : Nat}
    {argv argv' : Argv} {p p' : Proc} {hd ret : Int}
    (h : redirect_io_loop env stage mem (fuel + 1) i argv p hd = .ok (ret, argv', p')) :
    (argv[i]? = some none ∧ ret = hd ∧ argv' = argv ∧ p' = p) ∨
    ∃ s tok, argv[i]? = some (some s) ∧ cstr mem s = some tok ∧
      (((opOf tok = none ∨ argv[i + 1]? = some none) ∧
          redirect_io_loop env stage mem fuel (i + 1) argv p hd = .ok (ret, argv', p'))
      ∨ ∃ flags std f path, opOf tok = some (flags, std) ∧ argv[i + 1]? = some (some f) ∧
          cstr mem f = some path ∧
          ((∃ p1, redirect_to env stage i p path flags std = (p1, true) ∧
              redirect_io_loop env stage mem fuel (i + 1) (argv.set i none) p1 1
                = .ok (ret, argv', p'))
          ∨ (redirect_to env stage i p path flags std = (p', false) ∧ ret = -1 ∧ argv' = argv))) := by
  rw [redirect_io_loop] at h
  cases hai : argv[i]? with
  | none => simp [hai] at h
  | some slot =>
    cases slot with
    | none =>
      simp only [hai, Res.ok.injEq, Prod.mk.injEq] at h
      exact Or.inl ⟨rfl, h.1.symm, h.2.1.symm, h.2.2.symm⟩
    | some s =>
      right
      simp only [hai] at h
      cases hcs : cstr mem s with
      | none => simp [hcs] at h
      | some tok =>
        refine ⟨s, tok, rfl, hcs, ?_⟩
        simp only [hcs] at h
        by_cases hgt : tok = ['>']
        · simp only [hgt, if_true] at h
          cases han : argv[i + 1]? with
          | none => simp [han] at h
          | some slot1 =>
            cases slot1 with
            | none =>
              simp only [han] at h
              exact Or.inl ⟨Or.inr rfl, h⟩
            | some f =>
              simp only [han] at h
              cases hcf : cstr mem f with
              | none => simp [hcf] at h
              | some path =>
                simp only [hcf] at h
                refine Or.inr ⟨[.O_CREATE, .O_WRONLY], 1, f, path, by simp [opOf, hgt], rfl, hcf, ?_⟩
                rcases hrt : redirect_to env stage i p path [.O_CREATE, .O_WRONLY] 1 with ⟨p1, b⟩
                cases b with
                | true =>
                  simp only [hrt] at h
                  exact Or.inl ⟨p1, rfl, h⟩
                | false =>
                  simp only [hrt, Res.ok.injEq, Prod.mk.injEq] at h
                  obtain ⟨h1, h2, h3⟩ := h
                  subst h3
                  exact Or.inr ⟨rfl, h1.symm, h2.symm⟩
        · by_cases hlt : tok = ['<']
          · have hne : ¬ (['<'] = ['>']) := by decide
            simp only [hlt, hne, if_true, if_false] at h
            cases han : argv[i + 1]? with
            | none => simp [han] at h
            | some slot1 =>
              cases slot1 with
              | none =>
                simp only [han] at h
                exact Or.inl ⟨Or.inr rfl, h⟩
              | some f =>
                simp only [han] at h
                cases hcf : cstr mem f with
                | none => simp [hcf] at h
                | some path =>
                  simp only [hcf] at h
                  refine Or.inr ⟨[.O_RDONLY], 0, f, path, by simp [opOf, hlt], rfl, hcf, ?_⟩
                  rcases hrt : redirect_to env stage i p path [.O_RDONLY] 0 with ⟨p1, b⟩
                  cases b with
                  | true =>
                    simp only [hrt] at h
                    exact Or.inl ⟨p1, rfl, h⟩
                  | false =>
                    simp only [hrt, Res.ok.injEq, Prod.mk.injEq] at h
                    obtain ⟨h1, h2, h3⟩ := h
                    subst h3
                    exact Or.inr ⟨rfl, h1.symm, h2.symm⟩
          · simp only [hgt, hlt, if_false] at h
            exact Or.inl ⟨Or.inl (by simp [opOf, hgt, hlt]), h⟩


theorem drop_set_succ (argv : Argv) (i : Nat) (v : Option Nat) :
    (argv.set i v).drop (i + 1) = argv.drop (i + 1) :=
  drop_set_gt argv i (i + 1) v (Nat.lt_succ_self i)

theorem argvToks_drop_none (mem : Mem) (argv : Argv) (i : Nat) (h : argv[i]? = some none) :
    argvToks mem (argv.drop i) = [] := by
  rw [drop_of_getElem? argv i none h, argvToks_cons_none]

theorem argvToks_drop_some (mem : Mem) (argv : Argv) (i s : Nat) (tok : CStr)
    (h : argv[i]? = some (some s)) (hc : cstr mem s = some tok) :
    argvToks mem (argv.drop i) = tok :: argvToks mem (argv.drop (i + 1)) := by
  rw [drop_of_getElem? argv i (some s) h, argvToks_cons_some mem s _ tok hc]

theorem opOf_none_ne (tok : CStr) (h : opOf tok = none) : tok ≠ ['>'] ∧ tok ≠ ['<'] := by
  unfold opOf at h
  by_cases h1 : tok = ['>']
  · simp [h1] at h
  · by_cases h2 : tok = ['<']
    · simp [h1, h2] at h
    · exact ⟨h1, h2⟩

theorem opOf_some (tok : CStr) (flags : List OFlag) (std : Nat) (h : opOf tok = some (flags, std)) :
    (tok = ['>'] ∧ flags = [.O_CREATE, .O_WRONLY] ∧ std = 1)
    ∨ (tok = ['<'] ∧ flags = [.O_RDONLY] ∧ std = 0) := by
  unfold opOf at h
  by_cases h1 : tok = ['>']
  · simp only [h1, if_true, Option.some.injEq, Prod.mk.injEq] at h
    exact Or.inl ⟨h1, h.1.symm, h.2.symm⟩
  · by_cases h2 : tok = ['<']
    · have hne : ¬ (['<'] = ['>']) := by decide
      rw [h2] at h
      simp only [hne, if_true, if_false, Option.some.injEq, Prod.mk.injEq] at h
      exact Or.inr ⟨h2, h.1.symm, h.2.symm⟩
    · simp [h1, h2] at h

/-- Where descriptors 0 and 1 point after a successful run of the loop of
`redirect_io` from slot `i` on. -/
theorem redirect_io_loop_std (env : Env) (stage : Nat) (mem : Mem) :
    ∀ (fuel i : Nat) (argv argv' : Argv) (p p' : Proc) (hd ret : Int) (x0 y0 : Obj),
    redirect_io_loop env stage mem fuel i argv p hd = .ok (ret, argv', p') →
    0 ≤ hd → 0 ≤ ret → OpenOn p.tbl 0 x0 → OpenOn p.tbl 1 y0 →
    OpenOn p'.tbl 0 (stdinAfter x0 (argvToks mem (argv.drop i)))
    ∧ OpenOn p'.tbl 1 (stdoutAfter y0 (argvToks mem (argv.drop i))) := by
  intro fuel
  induction fuel with
  | zero => intro i argv argv' p p' hd ret x0 y0 h; simp [redirect_io_loop] at h
  | succ fuel ih =>
    intro i argv argv' p p' hd ret x0 y0 h hhd hret h0 h1
    rcases redirect_io_loop_cases h with ⟨hai, -, -, rfl⟩ | ⟨s, tok, hai, hcs, hcase⟩
    · rw [argvToks_drop_none mem argv i hai]
      exact ⟨h0, h1⟩
    · rw [argvToks_drop_some mem argv i s tok hai hcs]
      rcases hcase with ⟨hskip, hrec⟩ | ⟨flags, std, f, path, hop, han, hcf, hcase⟩
      · obtain ⟨r0, r1⟩ := ih (i + 1) argv argv' p p' hd ret x0 y0 hrec hhd hret h0 h1
        rcases hskip with hno | hnull
        · obtain ⟨n1, n2⟩ := opOf_none_ne tok hno
          rw [stdinAfter_skip _ _ _ n2, stdoutAfter_skip _ _ _ n1]
          exact ⟨r0, r1⟩
        · rw [argvToks_drop_none mem argv (i + 1) hnull] at r0 r1 ⊢
          exact ⟨r0, r1⟩
      · rcases hcase with ⟨p1, hrt, hrec⟩ | ⟨-, hneg, -⟩
        · rw [argvToks_drop_some mem argv (i + 1) f path han hcf]
          rcases opOf_some tok flags std hop with ⟨rfl, rfl, rfl⟩ | ⟨rfl, rfl, rfl⟩
          · obtain ⟨ha, hb⟩ := redirect_to_std env stage i p p1 path _ 1 x0 y0 (by omega) h0 h1 hrt
            have h0' : OpenOn p1.tbl 0 x0 := by
              have := hb 0 (by omega) (by omega)
              simpa [OpenOn, this] using h0
            obtain ⟨r0, r1⟩ := ih (i + 1) (argv.set i none) argv' p1 p' 1 ret x0 _ hrec
              (by omega) hret h0' ha
            rw [drop_set_succ, argvToks_drop_some mem argv (i + 1) f path han hcf] at r0 r1
            rw [stdoutAfter_out, stdinAfter_skip _ _ _ (by decide)]
            exact ⟨r0, r1⟩
          · obtain ⟨ha, hb⟩ := redirect_to_std env stage i p p1 path _ 0 x0 y0 (by omega) h0 h1 hrt
            have h1' : OpenOn p1.tbl 1 y0 := by
              have := hb 1 (by omega) (by omega)
              simpa [OpenOn, this] using h1
            obtain ⟨r0, r1⟩ := ih (i + 1) (argv.set i none) argv' p1 p' 1 ret _ y0 hrec
              (by omega) hret ha h1'
            rw [drop_set_succ, argvToks_drop_some mem argv (i + 1) f path han hcf] at r0 r1
            rw [stdinAfter_in, stdoutAfter_skip _ _ _ (by decide)]
            exact ⟨r0, r1⟩
        · omega


/-! ## `redirect_io` and the argument array -/

theorem opOf_isSome_iff (tok : CStr) : (tok = ['>'] ∨ tok = ['<']) ↔ opOf tok ≠ none := by
  constructor
  · rintro (rfl | rfl) <;> decide
  · intro h
    by_contra hne
    push_neg at hne
    exact h (by simp [opOf, hne.1, hne.2])

theorem handledFrom_of_null {mem : Mem} {argv : Argv} {i j : Nat} (h : argv[i]? = some none) :
    ¬ HandledFrom mem argv i j := by
  rintro ⟨hij, hnn, -⟩
  obtain ⟨s, hs⟩ := hnn i (Nat.le_refl _) hij
  rw [h] at hs
  simp at hs

theorem handledFrom_succ {mem : Mem} {argv : Argv} {i j s : Nat} (hi : argv[i]? = some (some s))
    (hne : j ≠ i) : HandledFrom mem argv i j ↔ HandledFrom mem argv (i + 1) j := by
  constructor
  · rintro ⟨hij, hnn, hop⟩
    exact ⟨by omega, fun k h1 h2 => hnn k (by omega) h2, hop⟩
  · rintro ⟨hij, hnn, hop⟩
    refine ⟨by omega, fun k h1 h2 => ?_, hop⟩
    rcases Nat.eq_or_lt_of_le h1 with rfl | hlt
    · exact ⟨s, hi⟩
    · exact hnn k hlt h2

theorem handledFrom_set {mem : Mem} {argv : Argv} {i j : Nat} (v : Option Nat) :
    HandledFrom mem (argv.set i v) (i + 1) j ↔ HandledFrom mem argv (i + 1) j := by
  have hget : ∀ k, i + 1 ≤ k → (argv.set i v)[k]? = argv[k]? := by
    intro k hk
    rw [List.getElem?_set]
    simp [show ¬ i = k by omega]
  constructor
  · rintro ⟨hij, hnn, s, tok, f, h1, h2, h3, h4⟩
    refine ⟨hij, fun k a b => ?_, s, tok, f, ?_, h2, h3, ?_⟩
    · rw [← hget k a]; exact hnn k a b
    · rw [← hget j hij]; exact h1
    · rw [← hget (j + 1) (by omega)]; exact h4
  · rintro ⟨hij, hnn, s, tok, f, h1, h2, h3, h4⟩
    refine ⟨hij, fun k a b => ?_, s, tok, f, ?_, h2, h3, ?_⟩
    · rw [hget k a]; exact hnn k a b
    · rw [hget j hij]; exact h1
    · rw [hget (j + 1) (by omega)]; exact h4

/-- The array after a successful run of the loop of `redirect_io` from slot `i`:
exactly the handled operator slots have been nulled. -/
theorem redirect_io_loop_argv (env : Env) (stage : Nat) (mem : Mem) :
    ∀ (fuel i : Nat) (argv argv' : Argv) (p p' : Proc) (hd ret : Int),
    redirect_io_loop env stage mem fuel i argv p hd = .ok (ret, argv', p') →
    0 ≤ hd → 0 ≤ ret →
    argv'.length = argv.length ∧
    ∀ j, (HandledFrom mem argv i j → argv'[j]? = some none)
       ∧ (¬ HandledFrom mem argv i j → argv'[j]? = argv[j]?) := by
  intro fuel
  induction fuel with
  | zero => intro i argv argv' p p' hd ret h; simp [redirect_io_loop] at h
  | succ fuel ih =>
    intro i argv argv' p p' hd ret h hhd hret
    rcases redirect_io_loop_cases h with ⟨hai, -, rfl, -⟩ | ⟨s, tok, hai, hcs, hcase⟩
    · exact ⟨rfl, fun j => ⟨fun hh => absurd hh (handledFrom_of_null hai), fun _ => rfl⟩⟩
    · rcases hcase with ⟨hskip, hrec⟩ | ⟨flags, std, f, path, hop, han, hcf, hcase⟩
      · obtain ⟨hlen, hslots⟩ := ih (i + 1) argv argv' p p' hd ret hrec hhd hret
        have hnot : ¬ HandledFrom mem argv i i := by
          rintro ⟨-, -, s', tok', f', h1, h2, h3, h4⟩
          rw [hai] at h1
          simp only [Option.some.injEq] at h1
          subst h1
          rw [hcs] at h2
          simp only [Option.some.injEq] at h2
          subst h2
          rcases hskip with hno | hnull
          · exact (opOf_isSome_iff tok).mp h3 hno
          · rw [hnull] at h4; simp at h4
        refine ⟨hlen, fun j => ?_⟩
        by_cases hj : j = i
        · subst hj
          have hn1 : ¬ HandledFrom mem argv (j + 1) j := fun hh => by
            have := hh.1; omega
          exact ⟨fun hh => absurd hh hnot, fun _ => (hslots j).2 hn1⟩
        · rw [handledFrom_succ hai hj]
          exact hslots j
      · rcases hcase with ⟨p1, -, hrec⟩ | ⟨-, hneg, -⟩
        · obtain ⟨hlen, hslots⟩ := ih (i + 1) (argv.set i none) argv' p1 p' 1 ret hrec
            (by omega) hret
          have hilt : i < argv.length := by
            by_contra hge
            rw [List.getElem?_eq_none (by omega)] at hai
            simp at hai
          refine ⟨by simpa using hlen, fun j => ?_⟩
          by_cases hj : j = i
          · subst hj
            have hn1 : ¬ HandledFrom mem (argv.set j none) (j + 1) j := fun hh => by
              have := hh.1; omega
            have hval : argv'[j]? = some none := by
              rw [(hslots j).2 hn1, List.getElem?_set]
              simp [hilt]
            have hyes : HandledFrom mem argv j j :=
              ⟨Nat.le_refl _, fun k h1 h2 => ⟨s, by
                have : k = j := by omega
                subst this; exact hai⟩,
               s, tok, f, hai, hcs, (opOf_isSome_iff tok).mpr (by simp [hop]), han⟩
            exact ⟨fun _ => hval, fun hh => absurd hyes hh⟩
          · rw [handledFrom_succ hai hj, ← handledFrom_set none]
            have hsame : (argv.set i none)[j]? = argv[j]? := by
              rw [List.getElem?_set]
              simp [show ¬ i = j from fun e => hj e.symm]
            rw [← hsame]
            exact hslots j
        · omega


/-! ## `redirect_io`: calls made, and absence of faults -/

theorem redirect_to_events (env : Env) (stage i : Nat) (p : Proc) (path : CStr)
    (flags : List OFlag) (std : Nat) :
    ∃ evs, (redirect_to env stage i p path flags std).1.events = p.events ++ evs
      ∧ (∀ e ∈ evs, e.isDescriptorCall = true)
      ∧ ((redirect_to env stage i p path flags std).2 = true → ∀ e ∈ evs, e.isFailedOpen = false)
      ∧ ((redirect_to env stage i p path flags std).2 = false → ∃ e ∈ evs, e.isFailedOpen = true) := by
  unfold redirect_to
  by_cases hopen : env.openOk stage i path flags = true
  · simp only [hopen, if_true]
    refine ⟨[.open path flags (some (fdalloc p.tbl (.file path flags)).2), .close std,
      .dup (fdalloc p.tbl (.file path flags)).2
        (sys_dup (sys_close (fdalloc p.tbl (.file path flags)).1 std)
          (fdalloc p.tbl (.file path flags)).2).2,
      .close (fdalloc p.tbl (.file path flags)).2], ?_, ?_, ?_, ?_⟩
    · simp [Proc.close, Proc.dup]
    · intro e he
      simp only [List.mem_cons, List.mem_singleton, List.not_mem_nil, or_false] at he
      rcases he with rfl | rfl | rfl | rfl <;> rfl
    · intro _ e he
      simp only [List.mem_cons, List.mem_singleton, List.not_mem_nil, or_false] at he
      rcases he with rfl | rfl | rfl | rfl <;> rfl
    · intro h; simp at h
  · simp only [hopen, Bool.false_eq_true, if_false]
    refine ⟨[.open path flags none], rfl, ?_, ?_, ?_⟩
    · intro e he
      simp only [List.mem_singleton] at he
      subst he; rfl
    · intro h; simp at h
    · intro _; exact ⟨_, List.mem_singleton.mpr rfl, rfl⟩

/-- The calls made by the loop of `redirect_io`: descriptor calls only, and the
result is -1 exactly when one of the `open` calls failed. -/
theorem redirect_io_loop_events (env : Env) (stage : Nat) (mem : Mem) :
    ∀ (fuel i : Nat) (argv argv' : Argv) (p p' : Proc) (hd ret : Int),
    redirect_io_loop env stage mem fuel i argv p hd = .ok (ret, argv', p') →
    0 ≤ hd →
    ∃ evs, p'.events = p.events ++ evs ∧ (∀ e ∈ evs, e.isDescriptorCall = true)
      ∧ (0 ≤ ret → ∀ e ∈ evs, e.isFailedOpen = false)
      ∧ (ret < 0 → ret = -1 ∧ ∃ e ∈ evs, e.isFailedOpen = true) := by
  intro fuel
  induction fuel with
  | zero => intro i argv argv' p p' hd ret h; simp [redirect_io_loop] at h
  | succ fuel ih =>
    intro i argv argv' p p' hd ret h hhd
    rcases redirect_io_loop_cases h with ⟨-, hr, -, rfl⟩ | ⟨s, tok, -, -, hcase⟩
    · exact ⟨[], by simp, by simp, by simp, fun hneg => by omega⟩
    · rcases hcase with ⟨-, hrec⟩ | ⟨flags, std, f, path, -, -, -, hcase⟩
      · exact ih (i + 1) argv argv' p p' hd ret hrec hhd
      · obtain ⟨evs1, he1, hd1, hok1, hfail1⟩ := redirect_to_events env stage i p path flags std
        rcases hcase with ⟨p1, hrt, hrec⟩ | ⟨hrt, hneg, -⟩
        · obtain ⟨evs2, he2, hd2, hok2, hfail2⟩ :=
            ih (i + 1) (argv.set i none) argv' p1 p' 1 ret hrec (by omega)
          rw [hrt] at he1 hok1
          refine ⟨evs1 ++ evs2, by rw [he2, he1, List.append_assoc], ?_, ?_, ?_⟩
          · intro e he
            rcases List.mem_append.mp he with h' | h'
            · exact hd1 e h'
            · exact hd2 e h'
          · intro hr e he
            rcases List.mem_append.mp he with h' | h'
            · exact hok1 rfl e h'
            · exact hok2 hr e h'
          · intro hr
            obtain ⟨h1, e, he, hfe⟩ := hfail2 hr
            exact ⟨h1, e, List.mem_append_right _ he, hfe⟩
        · rw [hrt] at he1 hfail1
          refine ⟨evs1, he1, hd1, fun hr => by omega, fun _ => ⟨hneg, hfail1 rfl⟩⟩

theorem drop_eq_cons {α : Type} {l : List α} {i : Nat} {a : α} {t : List α}
    (h : l.drop i = a :: t) : l[i]? = some a ∧ l.drop (i + 1) = t := by
  induction l generalizing i with
  | nil => simp at h
  | cons x xs ih =>
    cases i with
    | zero =>
      simp only [List.drop_zero, List.cons.injEq] at h
      simp [h.1, h.2]
    | succ j => simpa using ih (by simpa using h)

/-- On a well-formed argument vector the loop of `redirect_io` runs without fault. -/
theorem redirect_io_loop_total (env : Env) (stage : Nat) (mem : Mem) :
    ∀ (ptrs : List Nat) (toks : List CStr), List.Forall₂ (PointsTo mem) ptrs toks →
    ∀ (rest : Argv) (fuel i : Nat) (argv : Argv) (p : Proc) (hd : Int),
    argv.drop i = ptrs.map some ++ none :: rest → ptrs.length < fuel →
    ∃ r, redirect_io_loop env stage mem fuel i argv p hd = .ok r := by
  intro ptrs toks hpts
  induction hpts with
  | nil =>
    intro rest fuel i argv p hd hdrop hf
    obtain ⟨f, rfl⟩ : ∃ f, fuel = f + 1 := ⟨fuel - 1, by simp at hf; omega⟩
    obtain ⟨hai, -⟩ := drop_eq_cons (by simpa using hdrop)
    exact ⟨_, by rw [redirect_io_loop, hai]⟩
  | @cons s tok ptrs' toks' hs hrest ih =>
    intro rest fuel i argv p hd hdrop hf
    obtain ⟨f, rfl⟩ : ∃ f, fuel = f + 1 := ⟨fuel - 1, by simp at hf; omega⟩
    obtain ⟨hai, hdrop1⟩ := drop_eq_cons (by simpa using hdrop)
    have hcs := cstr_of_pointsTo hs
    have hf' : ptrs'.length < f := by simp at hf; omega
    have hdrop1' : ∀ v, (argv.set i v).drop (i + 1) = ptrs'.map some ++ none :: rest := by
      intro v; rw [drop_set_succ]; exact hdrop1
    -- the slot behind the current one is the sentinel or a valid pointer
    have hnext : argv[i + 1]? = some none ∨
        ∃ g path, argv[i + 1]? = some (some g) ∧ cstr mem g = some path := by
      cases hrest with
      | nil =>
        obtain ⟨h, -⟩ := drop_eq_cons (by simpa using hdrop1)
        exact Or.inl h
      | @cons g path _ _ hg _ =>
        obtain ⟨h, -⟩ := drop_eq_cons (by simpa using hdrop1)
        exact Or.inr ⟨g, path, h, cstr_of_pointsTo hg⟩
    rw [redirect_io_loop, hai]
    simp only [hcs]
    by_cases hgt : tok = ['>']
    · simp only [hgt, if_true]
      rcases hnext with hn | ⟨g, path, hn, hcg⟩
      · simp only [hn]
        exact ih rest f (i + 1) argv p hd hdrop1 hf'
      · simp only [hn, hcg]
        rcases hrt : redirect_to env stage i p path [.O_CREATE, .O_WRONLY] 1 with ⟨p1, b⟩
        cases b with
        | true => exact ih rest f (i + 1) (argv.set i none) p1 1 (hdrop1' none) hf'
        | false => exact ⟨_, rfl⟩
    · by_cases hlt : tok = ['<']
      · have hne : ¬ (['<'] = ['>']) := by decide
        simp only [hlt, hne, if_true, if_false]
        rcases hnext with hn | ⟨g, path, hn, hcg⟩
        · simp only [hn]
          exact ih rest f (i + 1) argv p hd hdrop1 hf'
        · simp only [hn, hcg]
          rcases hrt : redirect_to env stage i p path [.O_RDONLY] 0 with ⟨p1, b⟩
          cases b with
          | true => exact ih rest f (i + 1) (argv.set i none) p1 1 (hdrop1' none) hf'
          | false => exact ⟨_, rfl⟩
      · simp only [hgt, hlt, if_false]
        exact ih rest f (i + 1) argv p hd hdrop1 hf'


/-! ## The child: pipe wiring, redirections, `exec` -/

/-- After the pipe wiring, descriptor 0 is the pending input (if any) and
descriptor 1 the write end of the new pipe (if any); otherwise they are the
ones the interpreter has. -/
theorem wire_pipes_std (tbl : FdTable) (fd_in : Nat) (next : Option (Nat × Nat))
    (a b x y : Obj) (h0 : OpenOn tbl 0 a) (h1 : OpenOn tbl 1 b)
    (hin : fd_in ≠ 0 → 2 ≤ fd_in ∧ OpenOn tbl fd_in x)
    (hnext : ∀ r w, next = some (r, w) → 2 ≤ r ∧ 2 ≤ w ∧ r ≠ w ∧ w ≠ fd_in ∧ OpenOn tbl w y) :
    OpenOn (wire_pipes tbl fd_in next).tbl 0 (if fd_in ≠ 0 then x else a)
    ∧ OpenOn (wire_pipes tbl fd_in next).tbl 1 (if next.isSome then y else b) := by
  -- first step
  have step1 : ∃ p1 : Proc,
      p1 = (if fd_in ≠ 0 then
              (((({ tbl := tbl, events := [] } : Proc).close 0).dup fd_in).close fd_in)
            else ({ tbl := tbl, events := [] } : Proc))
      ∧ OpenOn p1.tbl 0 (if fd_in ≠ 0 then x else a) ∧ OpenOn p1.tbl 1 b
      ∧ ∀ j, 2 ≤ j → j ≠ fd_in → p1.tbl[j]? = tbl[j]? := by
    refine ⟨_, rfl, ?_⟩
    by_cases hf : fd_in ≠ 0
    · obtain ⟨hge, hx⟩ := hin hf
      obtain ⟨ha, hb⟩ := rebind_std tbl 0 fd_in x (fun j hj => by omega) hx (by omega)
      simp only [if_pos hf, Proc.close, Proc.dup]
      refine ⟨ha, ?_, fun j hj hne => hb j (by omega) hne⟩
      have := hb 1 (by omega) (by omega)
      simpa only [OpenOn, this] using h1
    · simp only [if_neg hf]
      exact ⟨h0, h1, fun _ _ _ => trivial⟩
  obtain ⟨p1, hp1, h0', h1', hrest⟩ := step1
  cases next with
  | none =>
    have : wire_pipes tbl fd_in none = p1 := by rw [hp1]; rfl
    rw [this]
    exact ⟨h0', by simpa using h1'⟩
  | some rw =>
    obtain ⟨r, w⟩ := rw
    obtain ⟨hr, hw, hrw, hwin, hy⟩ := hnext r w rfl
    have : wire_pipes tbl fd_in (some (r, w)) = (((p1.close r).close 1).dup w).close w := by
      rw [hp1]; rfl
    rw [this]
    have hw1 : OpenOn p1.tbl w y := by
      have := hrest w hw hwin
      simpa [OpenOn, this] using hy
    have hT0 : OpenOn (sys_close p1.tbl r) 0 (if fd_in ≠ 0 then x else a) :=
      close_keeps _ r 0 _ (by omega) h0'
    have hTw : OpenOn (sys_close p1.tbl r) w y := close_keeps _ r w _ (Ne.symm hrw) hw1
    obtain ⟨ha, hb⟩ := rebind_std (sys_close p1.tbl r) 1 w y
      (fun j hj => ⟨_, by
        have : j = 0 := by omega
        subst this; exact hT0⟩) hTw (by omega)
    simp only [Proc.close, Proc.dup, Option.isSome_some, if_true]
    refine ⟨?_, ha⟩
    have := hb 0 (by omega) (by omega)
    simpa [OpenOn, this] using hT0

/-- How `run_child` ends when it ends without fault. -/
theorem run_child_cases {env : Env} {stage : Nat} {mem : Mem} {argv : Argv} {tbl : FdTable}
    {fd_in : Nat} {next : Option (Nat × Nat)} {c : Child}
    (h : run_child env stage mem argv tbl fd_in next = .ok c) :
    ∃ ret argv1 p3,
      redirect_io env stage mem argv (wire_pipes tbl fd_in next) = .ok (ret, argv1, p3)
      ∧ c.stage = stage ∧ c.hasNext = next.isSome ∧ c.toks = argvToks mem argv ∧ c.argv = argv1
      ∧ ((ret < 0 ∧ c.proc = { p3 with events := p3.events ++
                [.printf "Redirection failed\n" [], .exit 1] })
        ∨ (0 ≤ ret ∧ ∃ name,
            (argv1[0]? = some none ∧ name = none
              ∨ ∃ a0 nm, argv1[0]? = some (some a0) ∧ cstr mem a0 = some nm ∧ name = some nm)
            ∧ c.proc = exec_or_exit env stage p3 name)) := by
  unfold run_child at h
  cases hr : redirect_io env stage mem argv (wire_pipes tbl fd_in next) with
  | fault f => simp [hr] at h
  | ok r =>
    obtain ⟨ret, argv1, p3⟩ := r
    simp only [hr] at h
    refine ⟨ret, argv1, p3, rfl, ?_⟩
    by_cases hneg : ret < 0
    · simp only [hneg, if_true, Res.ok.injEq] at h
      subst h
      exact ⟨rfl, rfl, rfl, rfl, Or.inl ⟨hneg, rfl⟩⟩
    · simp only [hneg, if_false] at h
      cases h0 : argv1[0]? with
      | none => simp [h0] at h
      | some slot =>
        cases slot with
        | none =>
          simp only [h0, Res.ok.injEq] at h
          subst h
          exact ⟨rfl, rfl, rfl, rfl, Or.inr ⟨by omega, none, Or.inl ⟨rfl, rfl⟩, rfl⟩⟩
        | some a0 =>
          simp only [h0] at h
          cases hc : cstr mem a0 with
          | none => simp [hc] at h
          | some nm =>
            simp only [hc, Res.ok.injEq] at h
            subst h
            exact ⟨rfl, rfl, rfl, rfl,
              Or.inr ⟨by omega, some nm, Or.inr ⟨a0, nm, rfl, hc, rfl⟩, rfl⟩⟩

theorem exec_or_exit_tbl (env : Env) (stage : Nat) (p : Proc) (name : Option CStr) :
    (exec_or_exit env stage p name).tbl = p.tbl := by
  unfold exec_or_exit
  split <;> rfl

theorem exec_or_exit_events (env : Env) (stage : Nat) (p : Proc) (name : Option CStr) :
    (env.execOk stage name = true ∧
        (exec_or_exit env stage p name).events = p.events ++ [.exec name true])
    ∨ (env.execOk stage name = false ∧
        (exec_or_exit env stage p name).events = p.events ++
          [.exec name false, .printf "%s: command not found\n" [name], .exit 1]) := by
  unfold exec_or_exit
  by_cases h : env.execOk stage name = true
  · exact Or.inl ⟨h, by simp [h]⟩
  · exact Or.inr ⟨by simpa using h, by simp [h]⟩

theorem wire_pipes_events (tbl : FdTable) (fd_in : Nat) (next : Option (Nat × Nat)) :
    ∀ e ∈ (wire_pipes tbl fd_in next).events, e.isDescriptorCall = true := by
  unfold wire_pipes
  intro e he
  by_cases hf : fd_in ≠ 0
  · cases next with
    | none =>
      simp only [if_pos hf, Proc.close, Proc.dup, List.nil_append, List.cons_append,
        List.mem_cons, List.mem_singleton, List.not_mem_nil, or_false] at he
      rcases he with rfl | rfl | rfl <;> rfl
    | some rw =>
      simp only [if_pos hf, Proc.close, Proc.dup, List.nil_append, List.cons_append,
        List.mem_cons, List.mem_singleton, List.not_mem_nil, or_false] at he
      rcases he with rfl | rfl | rfl | rfl | rfl | rfl | rfl <;> rfl
  · cases next with
    | none =>
      simp only [if_neg hf, List.not_mem_nil] at he
    | some rw =>
      simp only [if_neg hf, Proc.close, Proc.dup, List.nil_append, List.cons_append,
        List.mem_cons, List.mem_singleton, List.not_mem_nil, or_false] at he
      rcases he with rfl | rfl | rfl | rfl <;> rfl


theorem redirect_io_total (env : Env) (stage : Nat) (mem : Mem) (argv : Argv) (toks : List CStr)
    (p : Proc) (hv : ValidArgv mem argv toks) :
    ∃ ret argv1 p3, redirect_io env stage mem argv p = .ok (ret, argv1, p3) := by
  obtain ⟨ptrs, rest, hargv, hpts⟩ := hv
  obtain ⟨⟨ret, argv1, p3⟩, hr⟩ := redirect_io_loop_total env stage mem ptrs toks hpts rest
    (argv.length + 1) 0 argv p 0 (by simpa using hargv) (by rw [hargv]; simp; omega)
  exact ⟨ret, argv1, p3, hr⟩

/-- On a well-formed argument vector the child runs without fault. -/
theorem run_child_total (env : Env) (stage : Nat) (mem : Mem) (argv : Argv) (toks : List CStr)
    (tbl : FdTable) (fd_in : Nat) (next : Option (Nat × Nat)) (hv : ValidArgv mem argv toks) :
    ∃ c, run_child env stage mem argv tbl fd_in next = .ok c := by
  obtain ⟨ret, argv1, p3, hr⟩ :=
    redirect_io_total env stage mem argv toks (wire_pipes tbl fd_in next) hv
  unfold run_child
  simp only [hr]
  by_cases hneg : ret < 0
  · simp only [hneg, if_true]
    exact ⟨_, rfl⟩
  · simp only [hneg, if_false]
    obtain ⟨hlen, hslots⟩ := redirect_io_loop_argv env stage mem _ 0 argv argv1 _ p3 0 ret hr
      (by omega) (by omega)
    obtain ⟨ptrs, rest, hargv, hpts⟩ := hv
    have hpos : 0 < argv1.length := by rw [hlen, hargv]; simp
    cases h0 : argv1[0]? with
    | none =>
      rw [List.getElem?_eq_none_iff] at h0
      omega
    | some slot =>
      cases slot with
      | none => exact ⟨_, rfl⟩
      | some a0 =>
        have hsame : argv1[0]? = argv[0]? := by
          by_cases hh : HandledFrom mem argv 0 0
          · rw [(hslots 0).1 hh] at h0; simp at h0
          · exact (hslots 0).2 hh
        rw [h0, hargv] at hsame
        cases hpts with
        | nil => simp at hsame
        | @cons q t _ _ hq _ =>
          simp only [List.map_cons, List.cons_append, List.getElem?_cons_zero,
            Option.some.injEq] at hsame
          subst hsame
          simp only [cstr_of_pointsTo hq]
          exact ⟨_, rfl⟩

/-- Descriptors 0 and 1 of a child that reaches `exec`. -/
theorem run_child_std {env : Env} {stage : Nat} {mem : Mem} {argv : Argv} {tbl : FdTable}
    {fd_in : Nat} {next : Option (Nat × Nat)} {c : Child} (a b x y : Obj)
    (h : run_child env stage mem argv tbl fd_in next = .ok c)
    (hexec : ∃ path ok, Event.exec path ok ∈ c.proc.events)
    (h0 : OpenOn tbl 0 a) (h1 : OpenOn tbl 1 b)
    (hin : fd_in ≠ 0 → 2 ≤ fd_in ∧ OpenOn tbl fd_in x)
    (hnext : ∀ r w, next = some (r, w) → 2 ≤ r ∧ 2 ≤ w ∧ r ≠ w ∧ w ≠ fd_in ∧ OpenOn tbl w y) :
    OpenOn c.proc.tbl 0 (stdinAfter (if fd_in ≠ 0 then x else a) c.toks)
    ∧ OpenOn c.proc.tbl 1 (stdoutAfter (if next.isSome then y else b) c.toks) := by
  obtain ⟨ret, argv1, p3, hr, -, -, htoks, -, hcase⟩ := run_child_cases h
  obtain ⟨evs, hevs, hdesc, -, -⟩ := redirect_io_loop_events env stage mem _ 0 argv argv1 _ p3 0 ret
    hr (by omega)
  have hnoexec : ∀ path ok, Event.exec path ok ∉ p3.events := by
    intro path ok hmem
    rw [hevs] at hmem
    rcases List.mem_append.mp hmem with h' | h'
    · have := wire_pipes_events tbl fd_in next _ h'
      simp [Event.isDescriptorCall] at this
    · have := hdesc _ h'
      simp [Event.isDescriptorCall] at this
  rcases hcase with ⟨-, hproc⟩ | ⟨hret, name, -, hproc⟩
  · obtain ⟨path, ok, hmem⟩ := hexec
    rw [hproc] at hmem
    simp only [List.mem_append, List.mem_cons, List.mem_singleton, List.not_mem_nil,
      or_false, reduceCtorEq] at hmem
    exact absurd hmem (hnoexec path ok)
  · obtain ⟨w0, w1⟩ := wire_pipes_std tbl fd_in next a b x y h0 h1 hin hnext
    have := redirect_io_loop_std env stage mem _ 0 argv argv1 _ p3 0 ret _ _ hr (by omega) hret
      w0 w1
    rw [hproc, exec_or_exit_tbl, htoks]
    simpa using this


/-! ## Spawning one stage -/

theorem sys_pipe_spec (tbl : FdTable) (id : Nat) (a b : Obj)
    (h0 : OpenOn tbl 0 a) (h1 : OpenOn tbl 1 b) :
    2 ≤ (sys_pipe tbl id).2.1 ∧ 2 ≤ (sys_pipe tbl id).2.2
    ∧ (sys_pipe tbl id).2.1 ≠ (sys_pipe tbl id).2.2
    ∧ OpenOn (sys_pipe tbl id).1 (sys_pipe tbl id).2.1 (.pipeRead id)
    ∧ OpenOn (sys_pipe tbl id).1 (sys_pipe tbl id).2.2 (.pipeWrite id)
    ∧ ∀ j x, OpenOn tbl j x → OpenOn (sys_pipe tbl id).1 j x := by
  have hbelow : ∀ j < 2, ∃ x, OpenOn tbl j x := by
    intro j hj
    rcases (by omega : j = 0 ∨ j = 1) with rfl | rfl
    · exact ⟨a, h0⟩
    · exact ⟨b, h1⟩
  have hbelow' : ∀ j < 2, ∃ x, OpenOn (fdalloc tbl (.pipeRead id)).1 j x := by
    intro j hj
    obtain ⟨x, hx⟩ := hbelow j hj
    exact ⟨x, fdalloc_keeps _ _ _ _ hx⟩
  have hr := fdalloc_new tbl (.pipeRead id)
  simp only [sys_pipe]
  refine ⟨lowestFree_ge _ _ hbelow, lowestFree_ge _ _ hbelow', ?_, ?_, fdalloc_new _ _, ?_⟩
  · intro e
    have hfree := lowestFree_free (fdalloc tbl (.pipeRead id)).1 (.pipeRead id)
    rw [fdalloc_fd (fdalloc tbl (.pipeRead id)).1 (.pipeWrite id)] at e
    rw [e] at hr
    exact hfree hr
  · exact fdalloc_keeps _ _ _ _ hr
  · intro j x hx
    exact fdalloc_keeps _ _ _ _ (fdalloc_keeps _ _ _ _ hx)

/-- How `spawn_stage` ends when it ends without fault. -/
theorem spawn_stage_cases {env : Env} {sh sh2 : Shell} {argv : Argv} {fd_in stage fd1 : Nat}
    {hasNext : Bool} (h : spawn_stage env sh argv fd_in stage hasNext = .ok (sh2, fd1)) :
    ∃ child,
      run_child env stage sh.mem argv (if hasNext then (sys_pipe sh.tbl sh.pipes).1 else sh.tbl)
        fd_in (if hasNext then some (sys_pipe sh.tbl sh.pipes).2 else none) = .ok child
      ∧ sh2.mem = sh.mem ∧ sh2.unreaped = sh.unreaped + 1
      ∧ sh2.pipes = sh.pipes + (if hasNext then 1 else 0)
      ∧ sh2.children = sh.children ++ [child]
      ∧ sh2.events = sh.events
          ++ (if hasNext then [.pipe (sys_pipe sh.tbl sh.pipes).2.1 (sys_pipe sh.tbl sh.pipes).2.2]
              else [])
          ++ [.fork] ++ (if fd_in ≠ 0 then [.close fd_in] else [])
          ++ (if hasNext then [.close (sys_pipe sh.tbl sh.pipes).2.2] else [])
      ∧ sh2.tbl = (if hasNext then
            sys_close (if fd_in ≠ 0 then sys_close (sys_pipe sh.tbl sh.pipes).1 fd_in
                       else (sys_pipe sh.tbl sh.pipes).1) (sys_pipe sh.tbl sh.pipes).2.2
          else (if fd_in ≠ 0 then sys_close sh.tbl fd_in else sh.tbl))
      ∧ fd1 = (if hasNext then (sys_pipe sh.tbl sh.pipes).2.1 else fd_in) := by
  unfold spawn_stage at h
  cases hasNext with
  | true =>
    simp only [if_true] at h ⊢
    cases hc : run_child env stage sh.mem argv (sys_pipe sh.tbl sh.pipes).1 fd_in
        (some (sys_pipe sh.tbl sh.pipes).2) with
    | fault f => simp [hc] at h
    | ok child =>
      simp only [hc, Res.ok.injEq, Prod.mk.injEq] at h
      obtain ⟨h1, h2⟩ := h
      subst h1 h2
      refine ⟨child, rfl, ?_⟩
      by_cases hf : fd_in ≠ 0
      · simp [if_pos hf, Shell.withProc, Shell.proc, Proc.close]
      · simp [if_neg hf, Shell.withProc, Shell.proc, Proc.close]
  | false =>
    simp only [Bool.false_eq_true, if_false] at h ⊢
    cases hc : run_child env stage sh.mem argv sh.tbl fd_in none with
    | fault f => simp [hc] at h
    | ok child =>
      simp only [hc, Res.ok.injEq, Prod.mk.injEq] at h
      obtain ⟨h1, h2⟩ := h
      subst h1 h2
      refine ⟨child, rfl, ?_⟩
      by_cases hf : fd_in ≠ 0
      · simp [if_pos hf, Shell.withProc, Shell.proc, Proc.close]
      · simp [if_neg hf, Shell.withProc, Shell.proc, Proc.close]

theorem spawn_stage_total (env : Env) (sh : Shell) (argv : Argv) (toks : List CStr)
    (fd_in stage : Nat) (hasNext : Bool) (hv : ValidArgv sh.mem argv toks) :
    ∃ r, spawn_stage env sh argv fd_in stage hasNext = .ok r := by
  unfold spawn_stage
  cases hasNext with
  | true =>
    obtain ⟨c, hc⟩ := run_child_total env stage sh.mem argv toks (sys_pipe sh.tbl sh.pipes).1 fd_in
      (some (sys_pipe sh.tbl sh.pipes).2) hv
    simp only [if_true, hc]
    exact ⟨_, rfl⟩
  | false =>
    obtain ⟨c, hc⟩ := run_child_total env stage sh.mem argv toks sh.tbl fd_in none hv
    simp only [Bool.false_eq_true, if_false, hc]
    exact ⟨_, rfl⟩


/-- A child none of whose `open` calls failed reaches `exec`. -/
theorem run_child_reached {env : Env} {stage : Nat} {mem : Mem} {argv : Argv} {tbl : FdTable}
    {fd_in : Nat} {next : Option (Nat × Nat)} {c : Child}
    (h : run_child env stage mem argv tbl fd_in next = .ok c) (hok : c.opensOk) :
    c.reachedExec := by
  obtain ⟨ret, argv1, p3, hr, -, -, -, -, hcase⟩ := run_child_cases h
  obtain ⟨evs, hevs, -, -, hfail⟩ := redirect_io_loop_events env stage mem _ 0 argv argv1 _ p3 0 ret
    hr (by omega)
  rcases hcase with ⟨hneg, hproc⟩ | ⟨-, name, -, hproc⟩
  · obtain ⟨-, e, he, hfe⟩ := hfail hneg
    have := hok e (by rw [hproc, hevs]; simp [he])
    rw [hfe] at this
    simp at this
  · rcases exec_or_exit_events env stage p3 name with ⟨-, hev⟩ | ⟨-, hev⟩
    · exact ⟨name, true, by rw [hproc, hev]; simp⟩
    · exact ⟨name, false, by rw [hproc, hev]; simp⟩

theorem spawn_stage_inv {env : Env} {sh sh2 : Shell} {argv : Argv} {fd_in stage fd1 : Nat}
    {hasNext : Bool} (a b : Obj) (base : Nat)
    (h : spawn_stage env sh argv fd_in stage hasNext = .ok (sh2, fd1))
    (hinv : LoopInv a b base sh.tbl sh.pipes fd_in stage) :
    (hasNext = true → LoopInv a b base sh2.tbl sh2.pipes fd1 (stage + 1))
    ∧ ∃ child, sh2.children = sh.children ++ [child] ∧ child.wiredIfOpens a b base := by
  obtain ⟨h0, h1, hpipes, hz, hnz⟩ := hinv
  obtain ⟨child, hchild, -, -, hp2, hch, -, htbl, hfd⟩ := spawn_stage_cases h
  obtain ⟨pr, pw, prw, por0, pow0, pkeep⟩ := sys_pipe_spec sh.tbl sh.pipes a b h0 h1
  have por : OpenOn (sys_pipe sh.tbl sh.pipes).1 (sys_pipe sh.tbl sh.pipes).2.1
      (.pipeRead (base + stage)) := by
    rw [← hpipes]; exact por0
  have pow : OpenOn (sys_pipe sh.tbl sh.pipes).1 (sys_pipe sh.tbl sh.pipes).2.2
      (.pipeWrite (base + stage)) := by
    rw [← hpipes]; exact pow0
  have hiff : fd_in ≠ 0 ↔ stage ≠ 0 := by
    constructor
    · intro hf hs; exact hf (hz hs)
    · intro hs hf; have := (hnz hs).1; omega
  constructor
  · intro hn
    subst hn
    simp only [if_true] at htbl hfd hp2
    subst hfd
    have hclose : ∀ j x, j ≠ fd_in ∨ fd_in = 0 → j ≠ (sys_pipe sh.tbl sh.pipes).2.2 →
        OpenOn (sys_pipe sh.tbl sh.pipes).1 j x → OpenOn sh2.tbl j x := by
      intro j x hj hjw hx
      rw [htbl]
      refine close_keeps _ _ _ _ hjw ?_
      by_cases hf : fd_in ≠ 0
      · rw [if_pos hf]
        exact close_keeps _ _ _ _ (by rcases hj with h | h <;> [exact h; exact absurd h hf]) hx
      · rw [if_neg hf]; exact hx
    have hne_in : ∀ j, j < 2 → j ≠ fd_in ∨ fd_in = 0 := by
      intro j hj
      by_cases hf : fd_in = 0
      · exact Or.inr hf
      · left
        have := (hnz ((hiff).mp hf)).1
        omega
    refine ⟨hclose 0 a (hne_in 0 (by omega)) (by omega) (pkeep 0 a h0),
      hclose 1 b (hne_in 1 (by omega)) (by omega) (pkeep 1 b h1), by omega, by omega,
      fun _ => ⟨pr, ?_⟩⟩
    have harith : base + (stage + 1) - 1 = base + stage := by omega
    rw [harith]
    refine hclose _ _ ?_ prw por
    by_cases hf : fd_in = 0
    · exact Or.inr hf
    · left
      intro e
      have hx := pkeep fd_in _ (hnz ((hiff).mp hf)).2
      rw [← e] at hx
      have : Obj.pipeRead (base + stage) = Obj.pipeRead (base + stage - 1) := by
        have := por.symm.trans hx
        simpa using this
      simp only [Obj.pipeRead.injEq] at this
      have := (hiff).mp hf
      omega
  · refine ⟨child, hch, fun hopens => ?_⟩
    have hexec := run_child_reached hchild hopens
    refine ⟨hexec, ?_⟩
    obtain ⟨-, -, -, -, hst, hhn, -, -, -⟩ := run_child_cases hchild
    cases hasNext with
    | true =>
      simp only [if_true] at hchild
      have := run_child_std a b (.pipeRead (base + stage - 1)) (.pipeWrite (base + stage))
        hchild hexec (pkeep 0 a h0) (pkeep 1 b h1)
        (fun hf => ⟨(hnz ((hiff).mp hf)).1, pkeep _ _ (hnz ((hiff).mp hf)).2⟩)
        (fun r w hrw => by
          simp only [Option.some.injEq] at hrw
          have e1 : (sys_pipe sh.tbl sh.pipes).2.1 = r := by rw [hrw]
          have e2 : (sys_pipe sh.tbl sh.pipes).2.2 = w := by rw [hrw]
          rw [← e1, ← e2]
          refine ⟨pr, pw, prw, ?_, pow⟩
          intro e
          by_cases hf : fd_in = 0
          · omega
          · have hx := pkeep fd_in _ (hnz ((hiff).mp hf)).2
            rw [← e] at hx
            have := pow.symm.trans hx
            simp at this)
      unfold Child.wired
      rw [hst, hhn]
      by_cases hs : stage = 0
      · have hf : fd_in = 0 := hz hs
        simpa [hs, hf] using this
      · have hf : fd_in ≠ 0 := (hiff).mpr hs
        simpa [hs, hf] using this
    | false =>
      simp only [Bool.false_eq_true, if_false] at hchild
      have := run_child_std a b (.pipeRead (base + stage - 1)) (.pipeWrite (base + stage))
        hchild hexec h0 h1
        (fun hf => hnz ((hiff).mp hf)) (fun r w hrw => by simp at hrw)
      unfold Child.wired
      rw [hst, hhn]
      by_cases hs : stage = 0
      · have hf : fd_in = 0 := hz hs
        simpa [hs, hf] using this
      · have hf : fd_in ≠ 0 := (hiff).mpr hs
        simpa [hs, hf] using this

/-- What the built-in `cd` does when it ends without fault. -/
theorem run_cd_cases {env : Env} {sh sh1 : Shell} {argv : Argv}
    (h : run_cd env sh argv = .ok sh1) :
    sh1.mem = sh.mem ∧ sh1.tbl = sh.tbl ∧ sh1.unreaped = sh.unreaped
    ∧ sh1.children = sh.children
    ∧ ((argv[1]? = some none ∧ sh1.events = sh.events ++ cdEvents env [])
      ∨ ∃ a1 path, argv[1]? = some (some a1) ∧ cstr sh.mem a1 = some path
          ∧ sh1.events = sh.events ++ cdEvents env [path]) := by
  unfold run_cd at h
  cases h1 : argv[1]? with
  | none => simp [h1] at h
  | some slot =>
    cases slot with
    | none =>
      simp only [h1, Res.ok.injEq] at h
      subst h
      exact ⟨rfl, rfl, rfl, rfl, Or.inl ⟨rfl, rfl⟩⟩
    | some a1 =>
      simp only [h1] at h
      cases hc : cstr sh.mem a1 with
      | none => simp [hc] at h
      | some path =>
        simp only [hc] at h
        by_cases hok : env.chdirOk path = true
        · simp only [hok, if_true, Res.ok.injEq] at h
          subst h
          exact ⟨rfl, rfl, rfl, rfl, Or.inr ⟨a1, path, rfl, hc, by simp [cdEvents, hok, Shell.withProc]⟩⟩
        · simp only [hok, Bool.false_eq_true, if_false, Res.ok.injEq] at h
          subst h
          exact ⟨rfl, rfl, rfl, rfl, Or.inr ⟨a1, path, rfl, hc,
            by simp [cdEvents, hok, Shell.withProc, Proc.printf, cdDiag]⟩⟩

/-- Case analysis of one iteration of the loop of `run_command` that ends well. -/
theorem run_loop_cases {env : Env} {fuel : Nat} {sh sh1 : Shell} {argv : Argv}
    {fd_in stage cmd : Nat} {ex : LoopExit}
    (h : run_loop env (fuel + 1) sh argv fd_in stage (some cmd) = .ok (sh1, ex)) :
    ∃ mem1 next_cmd mem2 argv1,
      cut_stage sh.mem cmd = some (mem1, next_cmd) ∧ split mem1 cmd argv = .ok (mem2, argv1)
      ∧ ((argv1[0]? = some none ∧ sh1 = { sh with mem := mem2 } ∧ ex = .toWait)
        ∨ ∃ a0 name, argv1[0]? = some (some a0) ∧ cstr mem2 a0 = some name
            ∧ ((name = ['c', 'd'] ∧ run_cd env { sh with mem := mem2 } argv1 = .ok sh1
                  ∧ ex = .returned)
              ∨ (name ≠ ['c', 'd'] ∧ ∃ sh2 fd1,
                  spawn_stage env { sh with mem := mem2 } argv1 fd_in stage next_cmd.isSome
                    = .ok (sh2, fd1)
                  ∧ run_loop env fuel sh2 argv1 fd1 (stage + 1) next_cmd = .ok (sh1, ex)))) := by
  rw [run_loop] at h
  cases hcut : cut_stage sh.mem cmd with
  | none => simp [hcut] at h
  | some r =>
    obtain ⟨mem1, next_cmd⟩ := r
    simp only [hcut] at h
    cases hsp : split mem1 cmd argv with
    | fault f => simp [hsp] at h
    | ok r2 =>
      obtain ⟨mem2, argv1⟩ := r2
      simp only [hsp] at h
      refine ⟨mem1, next_cmd, mem2, argv1, rfl, hsp, ?_⟩
      cases h0 : argv1[0]? with
      | none => simp [h0] at h
      | some slot =>
        cases slot with
        | none =>
          simp only [h0, Res.ok.injEq, Prod.mk.injEq] at h
          exact Or.inl ⟨rfl, h.1.symm, h.2.symm⟩
        | some a0 =>
          simp only [h0] at h
          cases hc : cstr mem2 a0 with
          | none => simp [hc] at h
          | some name =>
            simp only [hc] at h
            refine Or.inr ⟨a0, name, rfl, hc, ?_⟩
            by_cases hcd : name = ['c', 'd']
            · simp only [hcd, if_true] at h
              cases hr : run_cd env { sh with mem := mem2 } argv1 with
              | fault f => simp [hr] at h
              | ok sh2 =>
                simp only [hr, Res.ok.injEq, Prod.mk.injEq] at h
                exact Or.inl ⟨hcd, by rw [h.1], h.2.symm⟩
            · simp only [hcd, if_false] at h
              cases hs : spawn_stage env { sh with mem := mem2 } argv1 fd_in stage
                  next_cmd.isSome with
              | fault f => simp [hs] at h
              | ok r3 =>
                obtain ⟨sh2, fd1⟩ := r3
                simp only [hs] at h
                exact Or.inr ⟨hcd, sh2, fd1, rfl, h⟩

/-- Every child forked by the loop of `run_command` whose `open` calls all
succeed reaches `exec` with descriptors 0 and 1 wired as `Child.wired` says. -/
theorem run_loop_wired (env : Env) (a b : Obj) (base : Nat) :
    ∀ (fuel : Nat) (sh sh1 : Shell) (argv : Argv) (fd_in stage : Nat) (cmd : Option Nat)
      (ex : LoopExit),
    run_loop env fuel sh argv fd_in stage cmd = .ok (sh1, ex) →
    (cmd.isSome → LoopInv a b base sh.tbl sh.pipes fd_in stage) →
    (∀ c ∈ sh.children, c.wiredIfOpens a b base) →
    ∀ c ∈ sh1.children, c.wiredIfOpens a b base := by
  intro fuel
  induction fuel with
  | zero => intro sh sh1 argv fd_in stage cmd ex h; simp [run_loop] at h
  | succ fuel ih =>
    intro sh sh1 argv fd_in stage cmd ex h hinv hold
    cases cmd with
    | none =>
      simp only [run_loop, Res.ok.injEq, Prod.mk.injEq] at h
      rw [← h.1]; exact hold
    | some cmd =>
      obtain ⟨mem1, next_cmd, mem2, argv1, -, -, hcase⟩ := run_loop_cases h
      rcases hcase with ⟨-, rfl, -⟩ | ⟨a0, name, -, -, hcase⟩
      · exact hold
      · rcases hcase with ⟨-, hcd, -⟩ | ⟨-, sh2, fd1, hsp, hrec⟩
        · obtain ⟨-, -, -, hch, -⟩ := run_cd_cases hcd
          rw [hch]; exact hold
        · obtain ⟨hnext, child, hch, hwired⟩ := spawn_stage_inv a b base hsp (hinv rfl)
          refine ih sh2 sh1 argv1 fd1 (stage + 1) next_cmd ex hrec hnext ?_
          intro c hc
          rw [hch] at hc
          rcases List.mem_append.mp hc with h' | h'
          · exact hold c h'
          · rw [List.mem_singleton.mp h']; exact hwired


/-! ## One stage of the loop of `run_command`, from the text of the stage -/

theorem strchrOf_absent (c : Char) (s post : List Char) (hc : c ∉ s) (hn : NUL ∉ s) :
    strchrOf c (s ++ NUL :: post) = some none := by
  induction s with
  | nil => simp [strchrOf]
  | cons x t ih =>
    have hx : x ≠ NUL := fun e => hn (by simp [e])
    have hxc : x ≠ c := fun e => hc (by simp [e])
    simp [strchrOf, hx, hxc, ih (fun h => hc (by simp [h])) (fun h => hn (by simp [h]))]

theorem strchrOf_found (c : Char) (s rest : List Char) (hc : c ∉ s) (hn : NUL ∉ s)
    (hcn : c ≠ NUL) : strchrOf c (s ++ c :: rest) = some (some s.length) := by
  induction s with
  | nil => simp [strchrOf, hcn]
  | cons x t ih =>
    have hx : x ≠ NUL := fun e => hn (by simp [e])
    have hxc : x ≠ c := fun e => hc (by simp [e])
    simp [strchrOf, hx, hxc, ih (fun h => hc (by simp [h])) (fun h => hn (by simp [h]))]

theorem cut_stage_last (pre s0 post : List Char) (hc : '|' ∉ s0) (hn : NUL ∉ s0) :
    cut_stage (pre ++ s0 ++ NUL :: post) pre.length = some (pre ++ s0 ++ NUL :: post, none) := by
  have : (pre ++ s0 ++ NUL :: post).drop pre.length = s0 ++ NUL :: post := by
    rw [List.append_assoc, List.drop_left]
  simp [cut_stage, strchr, this, strchrOf_absent _ _ _ hc hn]

theorem cut_stage_pipe (pre s0 rest : List Char) (hc : '|' ∉ s0) (hn : NUL ∉ s0) :
    cut_stage (pre ++ s0 ++ '|' :: rest) pre.length
      = some (pre ++ s0 ++ NUL :: rest, some ((pre ++ s0 ++ [NUL]).length)) := by
  have h1 : (pre ++ s0 ++ '|' :: rest).drop pre.length = s0 ++ '|' :: rest := by
    rw [List.append_assoc, List.drop_left]
  have h2 : (pre ++ s0 ++ '|' :: rest).set (pre.length + s0.length) NUL
      = pre ++ s0 ++ NUL :: rest := by
    have := set_mid (pre ++ s0) '|' NUL rest
    simp only [List.length_append] at this
    exact this
  simp only [cut_stage, strchr, h1, strchrOf_found _ _ _ hc hn (by decide), Option.map_some',
    h2]
  simp [Nat.add_assoc]

theorem split_valid (pre body post : List Char) (argv : Argv) (hnul : NUL ∉ body)
    (hcap : (maximalRuns body).length < argv.length) :
    ∃ argv1, split (pre ++ body ++ NUL :: post) pre.length argv
        = .ok (pre ++ zeroWs body ++ NUL :: post, argv1)
      ∧ ValidArgv (pre ++ zeroWs body ++ NUL :: post) argv1 (maximalRuns body)
      ∧ argv1.length = argv.length := by
  obtain ⟨ptrs, hsp, hpts, -, -, -⟩ := split_spec pre body post argv hnul hcap
  refine ⟨_, hsp, ⟨ptrs, _, rfl, hpts⟩, ?_⟩
  have := hpts.length_eq
  simp only [List.length_append, List.length_map, List.length_cons, List.length_drop]
  omega

theorem validArgv_nil {mem : Mem} {argv : Argv} (h : ValidArgv mem argv []) :
    argv[0]? = some none := by
  obtain ⟨ptrs, rest, rfl, hpts⟩ := h
  cases hpts
  simp

theorem validArgv_cons {mem : Mem} {argv : Argv} {t : CStr} {ts : List CStr}
    (h : ValidArgv mem argv (t :: ts)) :
    (∃ a0, argv[0]? = some (some a0) ∧ cstr mem a0 = some t)
    ∧ ((ts = [] ∧ argv[1]? = some none)
      ∨ ∃ u us a1, ts = u :: us ∧ argv[1]? = some (some a1) ∧ cstr mem a1 = some u) := by
  obtain ⟨ptrs, rest, rfl, hpts⟩ := h
  cases hpts with
  | @cons p _ ps _ hp hps =>
    refine ⟨⟨p, by simp, cstr_of_pointsTo hp⟩, ?_⟩
    cases hps with
    | nil => exact Or.inl ⟨rfl, by simp⟩
    | @cons q u qs us hq _ => exact Or.inr ⟨u, us, q, rfl, by simp, cstr_of_pointsTo hq⟩

theorem validArgv_toks {mem : Mem} {argv : Argv} {toks : List CStr}
    (h : ValidArgv mem argv toks) : argvToks mem argv = toks := by
  obtain ⟨ptrs, rest, rfl, hpts⟩ := h
  simp only [argvToks, argvPtrs_append]
  induction hpts with
  | nil => rfl
  | cons hp _ ih => simp [List.filterMap_cons, cstr_of_pointsTo hp, ih]

theorem run_cd_valid (env : Env) (sh : Shell) (argv : Argv) (args : List CStr)
    (h : ValidArgv sh.mem argv (cdName :: args)) :
    run_cd env sh argv = .ok { sh with events := sh.events ++ cdEvents env args } := by
  obtain ⟨-, h1⟩ := validArgv_cons h
  unfold run_cd
  rcases h1 with ⟨rfl, h1⟩ | ⟨u, us, a1, rfl, h1, hc⟩
  · simp [h1, cdEvents, cdDiag, Shell.withProc, Shell.proc, Proc.printf]
  · simp only [h1, hc]
    by_cases hok : env.chdirOk u = true
    · simp [hok, cdEvents, Shell.withProc, Shell.proc]
    · simp [hok, cdEvents, cdDiag, Shell.withProc, Shell.proc, Proc.printf]

/-- One iteration of the loop of `run_command` on a stage whose text is `s0`,
once `cut_stage` has isolated it. -/
theorem run_loop_stage (env : Env) (f : Nat) (sh : Shell) (argv : Argv) (fd_in stage : Nat)
    (pre s0 post0 : List Char) (next_cmd : Option Nat)
    (hcut : cut_stage sh.mem pre.length = some (pre ++ s0 ++ NUL :: post0, next_cmd))
    (hnul : NUL ∉ s0) (hcap : (maximalRuns s0).length < argv.length) :
    (maximalRuns s0 = [] →
        run_loop env (f + 1) sh argv fd_in stage (some pre.length)
          = .ok ({ sh with mem := pre ++ zeroWs s0 ++ NUL :: post0 }, .toWait))
    ∧ (∀ args, maximalRuns s0 = cdName :: args →
        run_loop env (f + 1) sh argv fd_in stage (some pre.length)
          = .ok ({ sh with mem := pre ++ zeroWs s0 ++ NUL :: post0,
                           events := sh.events ++ cdEvents env args }, .returned))
    ∧ (∀ t ts, maximalRuns s0 = t :: ts → t ≠ cdName →
        ∃ argv1 sh2 fd1, argv1.length = argv.length
          ∧ ValidArgv (pre ++ zeroWs s0 ++ NUL :: post0) argv1 (t :: ts)
          ∧ spawn_stage env { sh with mem := pre ++ zeroWs s0 ++ NUL :: post0 } argv1 fd_in stage
              next_cmd.isSome = .ok (sh2, fd1)
          ∧ run_loop env (f + 1) sh argv fd_in stage (some pre.length)
              = run_loop env f sh2 argv1 fd1 (stage + 1) next_cmd) := by
  obtain ⟨argv1, hsp, hv, hlen⟩ := split_valid pre s0 post0 argv hnul hcap
  refine ⟨fun hr => ?_, fun args hr => ?_, fun t ts hr hne => ?_⟩
  · rw [hr] at hv
    rw [run_loop]
    simp only [hcut, hsp, validArgv_nil hv]
  · rw [hr] at hv
    obtain ⟨⟨a0, h0, hc⟩, -⟩ := validArgv_cons hv
    rw [run_loop]
    simp only [hcut, hsp, h0, hc]
    have hcd : cdName = ['c', 'd'] := rfl
    rw [if_pos hcd, run_cd_valid env _ argv1 args hv]
  · rw [hr] at hv
    obtain ⟨⟨a0, h0, hc⟩, -⟩ := validArgv_cons hv
    obtain ⟨⟨sh2, fd1⟩, hs⟩ := spawn_stage_total env
      { sh with mem := pre ++ zeroWs s0 ++ NUL :: post0 } argv1 (t :: ts) fd_in stage
      next_cmd.isSome hv
    refine ⟨argv1, sh2, fd1, hlen, hv, hs, ?_⟩
    rw [run_loop]
    simp only [hcut, hsp, h0, hc]
    rw [if_neg (show ¬ t = ['c', 'd'] from hne)]
    simp only [hs]


/-! ## The whole loop of `run_command`, from the text of the segment -/

theorem spawn_stage_facts {env : Env} {sh sh2 : Shell} {argv : Argv} {toks : List CStr}
    {fd_in stage fd1 : Nat} {hasNext : Bool}
    (h : spawn_stage env sh argv fd_in stage hasNext = .ok (sh2, fd1))
    (hv : ValidArgv sh.mem argv toks) :
    sh2.mem = sh.mem ∧ sh2.unreaped = sh.unreaped + 1
    ∧ sh2.children.map Child.sig = sh.children.map Child.sig ++ [(stage, hasNext, toks)]
    ∧ ∃ evs, sh2.events = sh.events ++ evs ∧ evs.count .fork = 1
        ∧ (∀ e ∈ evs, e.isSpawnCall = true) := by
  obtain ⟨child, hchild, hmem, hun, -, hch, hev, -, -⟩ := spawn_stage_cases h
  obtain ⟨-, -, -, -, hst, hhn, htoks, -, -⟩ := run_child_cases hchild
  refine ⟨hmem, hun, ?_, ?_⟩
  · rw [hch, List.map_append]
    congr 1
    simp only [List.map_cons, List.map_nil, Child.sig, hst, hhn, htoks, validArgv_toks hv]
    cases hasNext <;> simp
  · refine ⟨(if hasNext then
        [.pipe (sys_pipe sh.tbl sh.pipes).2.1 (sys_pipe sh.tbl sh.pipes).2.2] else [])
      ++ [.fork] ++ (if fd_in ≠ 0 then [.close fd_in] else [])
      ++ (if hasNext then [.close (sys_pipe sh.tbl sh.pipes).2.2] else []),
      by rw [hev]; simp only [List.append_assoc], ?_, ?_⟩
    · cases hasNext <;> by_cases hf : fd_in ≠ 0 <;> simp [hf, List.count_cons]
    · intro e he
      simp only [List.mem_append, List.mem_singleton] at he
      rcases he with ((he | he) | he) | he
      · cases hasNext <;> simp at he
        subst he; rfl
      · subst he; rfl
      · by_cases hf : fd_in ≠ 0
        · simp only [if_pos hf, List.mem_singleton] at he
          subst he; rfl
        · simp [if_neg hf] at he
      · cases hasNext <;> simp at he
        subst he; rfl

theorem stagesOf_single (s0 : List Char) (h : '|' ∉ s0) : stagesOf s0 = [s0] := by
  unfold stagesOf
  apply List.splitOnP_eq_single
  intro x hx hp
  simp only [beq_iff_eq] at hp
  exact h (hp ▸ hx)

theorem stagesOf_cons (s0 seg1 : List Char) (h : '|' ∉ s0) :
    stagesOf (s0 ++ '|' :: seg1) = s0 :: stagesOf seg1 := by
  unfold stagesOf
  apply List.splitOnP_first
  · intro x hx hp
    simp only [beq_iff_eq] at hp
    exact h (hp ▸ hx)
  · simp

theorem stagesOf_ne_nil (seg : List Char) : stagesOf seg ≠ [] :=
  List.splitOnP_ne_nil _ _

/-- The first stage of a segment, and what is left behind its delimiter. -/
theorem segment_decomp (seg : List Char) :
    ∃ s0, '|' ∉ s0 ∧
      ((seg = s0 ∧ stagesOf seg = [s0])
      ∨ ∃ seg1, seg = s0 ++ '|' :: seg1 ∧ stagesOf seg = s0 :: stagesOf seg1) := by
  obtain ⟨s0, b, hseg, hs0, hb, -⟩ := span_decomp (fun c => c != '|') seg
  have hno : '|' ∉ s0 := fun hmem => by
    have := hs0 _ hmem
    simp at this
  refine ⟨s0, hno, ?_⟩
  rcases hb with rfl | ⟨x, t, rfl, hx⟩
  · left
    simp only [List.append_nil] at hseg
    exact ⟨hseg, by rw [hseg]; exact stagesOf_single s0 hno⟩
  · right
    have hx' : x = '|' := by simpa using hx
    subst hx'
    exact ⟨t, hseg, by rw [hseg]; exact stagesOf_cons s0 t hno⟩

/-- Full description of the loop of `run_command` on a segment: it ends
without fault, forks exactly the children `liveChildren` lists, and leaves
through `return` exactly when it met a `cd`. -/
theorem run_loop_spec (env : Env) : ∀ (k : Nat) (seg : List Char), seg.length ≤ k →
    ∀ (pre post : List Char) (sh : Shell) (argv : Argv) (fd_in stage fuel : Nat),
    sh.mem = pre ++ seg ++ NUL :: post → NUL ∉ seg →
    (∀ s ∈ stagesOf seg, (maximalRuns s).length < argv.length) →
    (stagesOf seg).length < fuel →
    ∃ sh1 evs,
      run_loop env fuel sh argv fd_in stage (some pre.length)
        = .ok (sh1, if stopsAtCd (stagesOf seg) then .returned else .toWait)
      ∧ sh1.children.map Child.sig
          = sh.children.map Child.sig ++ liveChildren stage (stagesOf seg)
      ∧ sh1.unreaped = sh.unreaped + (liveChildren stage (stagesOf seg)).length
      ∧ sh1.events = sh.events ++ evs
      ∧ evs.count .fork = (liveChildren stage (stagesOf seg)).length
      ∧ (∀ r, Event.wait r ∉ evs) := by
  intro k
  induction k with
  | zero =>
    intro seg hk pre post sh argv fd_in stage fuel hmem hnul hcap hfuel
    have hseg : seg = [] := List.length_eq_zero.mp (Nat.le_zero.mp hk)
    subst hseg
    obtain ⟨f, rfl⟩ : ∃ f, fuel = f + 1 := ⟨fuel - 1, by omega⟩
    have hcut : cut_stage sh.mem pre.length = some (pre ++ [] ++ NUL :: post, none) := by
      rw [hmem]; exact cut_stage_last pre [] post (by simp) (by simp)
    obtain ⟨h1, -, -⟩ := run_loop_stage env f sh argv fd_in stage pre [] post none hcut
      (by simp) (by simp [maximalRuns_nil] at hcap ⊢; simpa [stagesOf, maximalRuns_nil] using hcap)
    refine ⟨{ sh with mem := pre ++ zeroWs [] ++ NUL :: post }, [], ?_, ?_, ?_, ?_, ?_, ?_⟩
    · rw [h1 maximalRuns_nil]
      simp [stagesOf, stopsAtCd, maximalRuns_nil]
    · simp [stagesOf, liveChildren, isLive, maximalRuns_nil]
    · simp [stagesOf, liveChildren, isLive, maximalRuns_nil]
    · simp
    · simp [stagesOf, liveChildren, isLive, maximalRuns_nil]
    · simp
  | succ k ih =>
    intro seg hk pre post sh argv fd_in stage fuel hmem hnul hcap hfuel
    obtain ⟨f, rfl⟩ : ∃ f, fuel = f + 1 := ⟨fuel - 1, by omega⟩
    obtain ⟨s0, hno, hshape⟩ := segment_decomp seg
    -- the stage under the pointer, the rest of the buffer and of the stage list
    have hfirst : ∃ post0 next_cmd rest,
        cut_stage sh.mem pre.length = some (pre ++ s0 ++ NUL :: post0, next_cmd)
        ∧ stagesOf seg = s0 :: rest ∧ NUL ∉ s0
        ∧ ((next_cmd = none ∧ rest = [])
          ∨ ∃ seg1, next_cmd = some (pre ++ zeroWs s0 ++ [NUL]).length
              ∧ rest = stagesOf seg1 ∧ post0 = seg1 ++ NUL :: post
              ∧ seg1.length ≤ k ∧ NUL ∉ seg1) := by
      rcases hshape with ⟨hseg, hst⟩ | ⟨seg1, hseg, hst⟩
      · refine ⟨post, none, [], ?_, hst, by rw [← hseg]; exact hnul, Or.inl ⟨rfl, rfl⟩⟩
        rw [hmem, hseg]
        exact cut_stage_last pre s0 post hno (by rw [← hseg]; exact hnul)
      · have hn0 : NUL ∉ s0 := fun h => hnul (by rw [hseg]; simp [h])
        have hn1 : NUL ∉ seg1 := fun h => hnul (by rw [hseg]; simp [h])
        refine ⟨seg1 ++ NUL :: post, some (pre ++ zeroWs s0 ++ [NUL]).length, stagesOf seg1, ?_,
          hst, hn0, Or.inr ⟨seg1, rfl, rfl, rfl, ?_, hn1⟩⟩
        · have := cut_stage_pipe pre s0 (seg1 ++ NUL :: post) hno hn0
          rw [hmem, hseg]
          simpa [List.append_assoc, zeroWs_length] using this
        · rw [hseg] at hk
          simp at hk
          omega
    obtain ⟨post0, next_cmd, rest, hcut, hst, hn0, hnext⟩ := hfirst
    have hcap0 : (maximalRuns s0).length < argv.length := hcap s0 (by rw [hst]; simp)
    obtain ⟨hA, hB, hC⟩ :=
      run_loop_stage env f sh argv fd_in stage pre s0 post0 next_cmd hcut hn0 hcap0
    rw [hst]
    cases hruns : maximalRuns s0 with
    | nil =>
      refine ⟨{ sh with mem := pre ++ zeroWs s0 ++ NUL :: post0 }, [], ?_, ?_, ?_, ?_, ?_, ?_⟩
      · rw [hA hruns]; simp [stopsAtCd, hruns]
      · simp [liveChildren, isLive, hruns]
      · simp [liveChildren, isLive, hruns]
      · simp
      · simp [liveChildren, isLive, hruns]
      · simp
    | cons t ts =>
      by_cases hcd : t = cdName
      · subst hcd
        refine ⟨{ sh with mem := pre ++ zeroWs s0 ++ NUL :: post0,
                          events := sh.events ++ cdEvents env ts }, cdEvents env ts,
          ?_, ?_, ?_, ?_, ?_, ?_⟩
        · rw [hB ts hruns]; simp [stopsAtCd, hruns]
        · simp [liveChildren, isLive, hruns]
        · simp [liveChildren, isLive, hruns]
        · simp
        · have : List.count Event.fork (cdEvents env ts) = 0 := by
            unfold cdEvents
            cases ts with
            | nil => simp [cdDiag, List.count_cons]
            | cons u us => by_cases hok : env.chdirOk u = true <;> simp [hok, cdDiag, List.count_cons]
          simp [liveChildren, isLive, hruns, this]
        · intro r hmem'
          unfold cdEvents at hmem'
          cases ts with
          | nil => simp [cdDiag] at hmem'
          | cons u us => by_cases hok : env.chdirOk u = true <;> simp [hok, cdDiag] at hmem'
      · obtain ⟨argv1, sh2, fd1, hlen, hv, hsp, hrun⟩ := hC t ts hruns hcd
        obtain ⟨hmem2, hun2, hch2, evs2, hev2, hfork2, hspawn2⟩ := spawn_stage_facts hsp hv
        have hlive : isLive s0 = true := by simp [isLive, hruns, hcd]
        have hstop : stopsAtCd (s0 :: rest) = stopsAtCd rest := by
          simp [stopsAtCd, hruns, hcd]
        have hnowait : ∀ r, Event.wait r ∉ evs2 := fun r hmem' => by
          have := hspawn2 _ hmem'
          simp [Event.isSpawnCall] at this
        rcases hnext with ⟨hnc, hrest⟩ | ⟨seg1, hnc, hrest, hpost0, hlen1, hnul1⟩
        · -- last stage of the segment
          subst hnc hrest
          obtain ⟨f1, rfl⟩ : ∃ f1, f = f1 + 1 := ⟨f - 1, by
            rw [hst] at hfuel; simp at hfuel; omega⟩
          refine ⟨sh2, evs2, ?_, ?_, ?_, hev2, ?_, hnowait⟩
          · rw [hrun, hstop]; simp [run_loop, stopsAtCd]
          · rw [hch2]; simp [liveChildren, hlive, hruns]
          · rw [hun2]; simp [liveChildren, hlive]
          · rw [hfork2]; simp [liveChildren, hlive]
        · -- a next stage follows
          subst hnc hrest hpost0
          have hmem2' : sh2.mem = (pre ++ zeroWs s0 ++ [NUL]) ++ seg1 ++ NUL :: post := by
            rw [hmem2]; simp [List.append_assoc]
          obtain ⟨sh3, evs3, hrun3, hch3, hun3, hev3, hfork3, hwait3⟩ :=
            ih seg1 hlen1 (pre ++ zeroWs s0 ++ [NUL]) post sh2 argv1 fd1 (stage + 1) f hmem2'
              hnul1 (fun s hs => by rw [hlen]; exact hcap s (by rw [hst]; simp [hs]))
              (by rw [hst] at hfuel; simp at hfuel; omega)
          refine ⟨sh3, evs2 ++ evs3, ?_, ?_, ?_, ?_, ?_, ?_⟩
          · rw [hrun, hstop]; exact hrun3
          · rw [hch3, hch2]
            have hne : (stagesOf seg1).isEmpty = false := by
              cases h : stagesOf seg1 with
              | nil => exact absurd h (stagesOf_ne_nil seg1)
              | cons _ _ => rfl
            simp [liveChildren, hlive, hruns, hne]
          · rw [hun3, hun2]; simp [liveChildren, hlive]; omega
          · rw [hev3, hev2, List.append_assoc]
          · rw [List.count_append, hfork2, hfork3]; simp [liveChildren, hlive]; omega
          · intro r hmem'
            rcases List.mem_append.mp hmem' with h' | h'
            · exact hnowait r h'
            · exact hwait3 r h'


/-! ## The claims about `split` -/

/-- C1: on a buffer whose text `body` (the characters before the first
terminator) is followed by a terminator, and with room in the array for the
pointers and the sentinel, `split` returns without fault; it stores, in
increasing position order, one pointer per maximal run of non-separator
characters of `body`, each reading back from the mutated buffer as that run,
followed by the null sentinel; no stored argument is empty, and an empty text
gives no argument at all. -/
theorem split_tokenizes (pre body post : List Char) (argv : Argv) (hnul : NUL ∉ body)
    (hcap : (maximalRuns body).length < argv.length) :
    ∃ ptrs : List Nat,
      split (pre ++ body ++ NUL :: post) pre.length argv
        = .ok (pre ++ zeroWs body ++ NUL :: post,
               ptrs.map some ++ none :: argv.drop (ptrs.length + 1))
      ∧ ptrs.map (cstr (pre ++ zeroWs body ++ NUL :: post)) = (maximalRuns body).map some
      ∧ ptrs.Pairwise (fun p q => p < q)
      ∧ (∀ p ∈ ptrs, pre.length ≤ p)
      ∧ [] ∉ maximalRuns body
      ∧ (body = [] → ptrs = []) := by
  obtain ⟨ptrs, hsp, hpts, hlow, -, hsorted⟩ := split_spec pre body post argv hnul hcap
  refine ⟨ptrs, hsp, map_cstr_of_forall₂ hpts, hsorted, ?_, maximalRuns_ne_nil body, ?_⟩
  · intro p hp
    have := hlow p hp
    omega
  · intro hb
    subst hb
    have := hpts.length_eq
    rw [maximalRuns_nil] at this
    exact List.length_eq_zero.mp this

/-- C1, on the line `"ls  -la\n"`: the arguments are `ls` and `-la`. -/
theorem split_tokenizes_witness :
    NUL ∉ "ls  -la\n".toList
    ∧ maximalRuns "ls  -la\n".toList = ["ls".toList, "-la".toList]
    ∧ ∃ ptrs : List Nat,
      split ([] ++ "ls  -la\n".toList ++ NUL :: []) ([] : List Char).length stackArgv
        = .ok ([] ++ zeroWs "ls  -la\n".toList ++ NUL :: [],
               ptrs.map some ++ none :: stackArgv.drop (ptrs.length + 1))
      ∧ ptrs.map (cstr ([] ++ zeroWs "ls  -la\n".toList ++ NUL :: []))
          = (maximalRuns "ls  -la\n".toList).map some
      ∧ ptrs.Pairwise (fun p q => p < q)
      ∧ (∀ p ∈ ptrs, ([] : List Char).length ≤ p)
      ∧ [] ∉ maximalRuns "ls  -la\n".toList
      ∧ ("ls  -la\n".toList = [] → ptrs = []) :=
  ⟨by decide, by decide,
   split_tokenizes [] "ls  -la\n".toList [] stackArgv (by decide) (by decide)⟩

/-- C7 fails on the code: a line of 32 one-letter arguments fits the 100-byte
buffer of `main`, and `split` then stores the sentinel in `argv[32]`, outside
`char *argv[MAXARG]`. -/
theorem main_line_overflows_argv :
    line32.length = 64 ∧ (maximalRuns line32).length = MAXARG
    ∧ main_line envAll stackArgv 101 (freshShell (lineBuf line32)) 0 = .fault .oobWrite := by
  decide

/-- C8 fails on the code: after `split` on `"ls  -la\n"` a second `split` on the
mutated buffer stops at the terminator written behind `ls` and yields only `ls`. -/
theorem split_twice_differs :
    ∃ mem1 argv1 argv2,
      split ("ls  -la\n".toList ++ [NUL]) 0 stackArgv = .ok (mem1, argv1)
      ∧ split mem1 0 argv1 = .ok (mem1, argv2)
      ∧ argvToks mem1 argv1 = ["ls".toList, "-la".toList]
      ∧ argvToks mem1 argv2 = ["ls".toList]
      ∧ argvPtrs argv2 ≠ argvPtrs argv1 :=
  ⟨['l', 's', NUL, NUL, '-', 'l', 'a', NUL, NUL],
   some 0 :: some 4 :: none :: List.replicate 29 none,
   some 0 :: none :: none :: List.replicate 29 none,
   by decide, by decide, by decide, by decide, by decide⟩


theorem maximalRuns_single (t : List Char) (hne : t ≠ []) (h : ∀ c ∈ t, isWs c = false) :
    maximalRuns t = [t] := by
  have := maximalRuns_tok t [] hne h (Or.inl rfl)
  simpa [maximalRuns_nil] using this

theorem takeWhile_isWs_of_head (x : Char) (u : List Char) (hx : isWs x = false) :
    (x :: u).takeWhile isWs = [] := by
  simp [List.takeWhile_cons, hx]

/-- C8 as amended: on a terminated buffer a second `split` on the buffer left by
the first one changes nothing more in the buffer and yields only the argument
that starts at the very beginning of the text (none when the text starts with a
separator or is empty); so it yields the same argument vector exactly when the
text holds no argument, or a single argument with no separator before it. -/
theorem split_twice (pre body post : List Char) (argv : Argv) (hnul : NUL ∉ body)
    (hcap : (maximalRuns body).length < argv.length) :
    ∃ mem1 argv1 argv2,
      split (pre ++ body ++ NUL :: post) pre.length argv = .ok (mem1, argv1)
      ∧ split mem1 pre.length argv1 = .ok (mem1, argv2)
      ∧ argvPtrs argv2
          = (if body.takeWhile (fun c => !isWs c) = [] then [] else [pre.length])
      ∧ (argvPtrs argv2 = argvPtrs argv1 ↔
          maximalRuns body = []
          ∨ ((maximalRuns body).length = 1 ∧ body.takeWhile isWs = [])) := by
  obtain ⟨ptrs1, hsp1, hpts1, hlow1, hhead1, -⟩ := split_spec pre body post argv hnul hcap
  obtain ⟨t, b, hbody, ht, hb, htdef⟩ := span_decomp (fun c => !isWs c) body
  have ht' : ∀ c ∈ t, isWs c = false := fun c hc => by simpa using ht c hc
  have hnul_t : NUL ∉ t := fun h => hnul (by rw [hbody]; simp [h])
  -- the buffer left by the first call, cut at its first terminator
  obtain ⟨post2, hmem1⟩ : ∃ post2,
      pre ++ zeroWs body ++ NUL :: post = pre ++ t ++ NUL :: post2 := by
    rcases hb with rfl | ⟨x, u, rfl, hx⟩
    · refine ⟨post, ?_⟩
      rw [hbody, List.append_nil, zeroWs_tok t ht']
    · refine ⟨zeroWs u ++ NUL :: post, ?_⟩
      have hx' : isWs x = true := by simpa using hx
      rw [hbody, zeroWs_append, zeroWs_tok t ht']
      simp [zeroWs, hx']
  have hlen1 : (ptrs1.map some ++ none :: argv.drop (ptrs1.length + 1)).length = argv.length := by
    have := hpts1.length_eq
    simp only [List.length_append, List.length_map, List.length_cons, List.length_drop]
    omega
  have hruns_t : maximalRuns t = if t = [] then [] else [t] := by
    by_cases h : t = []
    · simp [h, maximalRuns_nil]
    · simp only [h, if_false]
      exact maximalRuns_single t h ht'
  have hruns_body : t ≠ [] → maximalRuns body = t :: maximalRuns b := by
    intro h
    rw [hbody]
    refine maximalRuns_tok t b h ht' ?_
    rcases hb with h' | ⟨x, u, h', hx⟩
    · exact Or.inl h'
    · exact Or.inr ⟨x, u, h', by simpa using hx⟩
  have hcap2 : (maximalRuns t).length
      < (ptrs1.map some ++ none :: argv.drop (ptrs1.length + 1)).length := by
    rw [hlen1, hruns_t]
    by_cases h : t = []
    · simp only [h, if_true, List.length_nil]; omega
    · simp only [h, if_false, List.length_singleton]
      rw [hruns_body h] at hcap
      simp only [List.length_cons] at hcap
      omega
  obtain ⟨ptrs2, hsp2, hpts2, -, hhead2, -⟩ := split_spec pre t post2
    (ptrs1.map some ++ none :: argv.drop (ptrs1.length + 1)) hnul_t hcap2
  rw [zeroWs_tok t ht', ← hmem1] at hsp2
  have hptrs2 : ptrs2 = if t = [] then [] else [pre.length] := by
    rw [hruns_t] at hpts2
    by_cases h : t = []
    · simp only [h, if_true] at hpts2 ⊢
      cases hpts2; rfl
    · simp only [h, if_false] at hpts2 ⊢
      cases hpts2 with
      | @cons p _ ps _ _ hrest =>
        cases hrest
        have := hhead2 p rfl
        have ht0 : t.takeWhile isWs = [] := by
          cases t with
          | nil => exact absurd rfl h
          | cons x u => exact takeWhile_isWs_of_head x u (ht' x (by simp))
        rw [ht0] at this
        simp only [List.length_nil, Nat.add_zero] at this
        rw [this]
  refine ⟨_, _, _, hsp1, hsp2, ?_, ?_⟩
  · rw [argvPtrs_append, hptrs2, htdef]
  · rw [argvPtrs_append, argvPtrs_append, hptrs2]
    have hl := hpts1.length_eq
    by_cases h : t = []
    · simp only [h, if_true]
      have hnot : ¬ ((maximalRuns body).length = 1 ∧ body.takeWhile isWs = []) := by
        rintro ⟨h1, h2⟩
        have hbnil : body = [] := by
          cases body with
          | nil => rfl
          | cons x u =>
            exfalso
            by_cases hx : isWs x = true
            · simp [List.takeWhile_cons, hx] at h2
            · rw [htdef] at h
              simp [List.takeWhile_cons, hx] at h
        rw [hbnil, maximalRuns_nil] at h1
        simp at h1
      constructor
      · intro e
        left
        rw [← e] at hl
        exact List.length_eq_zero.mp hl.symm
      · rintro (e | e)
        · rw [e] at hl
          exact (List.length_eq_zero.mp hl).symm
        · exact absurd e hnot
    · simp only [h, if_false]
      have hrb := hruns_body h
      have hws0 : body.takeWhile isWs = [] := by
        rw [hbody]
        cases t with
        | nil => exact absurd rfl h
        | cons x u => exact takeWhile_isWs_of_head x _ (ht' x (by simp))
      rw [hrb] at hpts1
      cases hpts1 with
      | @cons p _ ps _ _ hrest =>
        have hp := hhead1 p rfl
        rw [hws0] at hp
        simp only [List.length_nil, Nat.add_zero] at hp
        subst hp
        have hl2 := hrest.length_eq
        rw [hrb]
        constructor
        · intro e
          right
          have : ps = [] := by
            simp only [List.cons.injEq, true_and] at e
            exact e.symm
          rw [this] at hl2
          simp only [List.length_cons, hws0, and_true]
          simp at hl2
          omega
        · rintro (e | ⟨e, -⟩)
          · simp at e
          · simp only [List.length_cons] at e
            have : ps.length = 0 := by omega
            rw [List.length_eq_zero.mp this]

/-- C8 as amended, on `"ls\n"`: a single argument at the start of the text, and
the second `split` yields the same argument vector. -/
theorem split_twice_witness :
    maximalRuns "ls\n".toList = ["ls".toList]
    ∧ ∃ mem1 argv1 argv2,
      split ([] ++ "ls\n".toList ++ NUL :: []) ([] : List Char).length stackArgv
        = .ok (mem1, argv1)
      ∧ split mem1 ([] : List Char).length argv1 = .ok (mem1, argv2)
      ∧ argvPtrs argv2
          = (if "ls\n".toList.takeWhile (fun c => !isWs c) = [] then []
             else [([] : List Char).length])
      ∧ (argvPtrs argv2 = argvPtrs argv1 ↔
          maximalRuns "ls\n".toList = []
          ∨ ((maximalRuns "ls\n".toList).length = 1 ∧ "ls\n".toList.takeWhile isWs = [])) :=
  ⟨by decide, split_twice [] "ls\n".toList [] stackArgv (by decide) (by decide)⟩


/-! ## The claims about `run_command` -/

theorem length_modifyHead_cons (x : Char) (l : List (List Char)) :
    (l.modifyHead (List.cons x)).length = l.length := by
  cases l <;> rfl

theorem stagesOf_length (seg : List Char) : (stagesOf seg).length = seg.count '|' + 1 := by
  unfold stagesOf
  induction seg with
  | nil => rfl
  | cons x xs ih =>
    rw [List.splitOnP_cons]
    by_cases hx : x = '|'
    · subst hx
      simp [ih]
    · have hx' : (x == '|') = false := by simpa using hx
      rw [hx']
      simp only [Bool.false_eq_true, if_false, length_modifyHead_cons, ih]
      rw [List.count_cons_of_ne (Ne.symm hx)]

theorem liveChildren_noCd (l : List (List Char)) (stage : Nat)
    (h : ∀ s ∈ l, isCd s = false) :
    (liveChildren stage l).map (fun x => x.2.2) = (stagesRun l).map maximalRuns
      ∧ stopsAtCd l = false := by
  induction l generalizing stage with
  | nil => exact ⟨rfl, rfl⟩
  | cons s rest ih =>
    have hs : isCd s = false := h s (by simp)
    obtain ⟨h1, h2⟩ := ih (stage + 1) (fun x hx => h x (by simp [hx]))
    unfold isCd at hs
    cases hr : maximalRuns s with
    | nil => simp [liveChildren, isLive, stagesRun, stopsAtCd, hr]
    | cons t ts =>
      simp only [hr, beq_eq_false_iff_ne, ne_eq] at hs
      refine ⟨?_, by simp [stopsAtCd, hr, hs, h2]⟩
      have h1' : List.map (fun x : Nat × Bool × List CStr => x.2.2) (liveChildren (stage + 1) rest)
          = List.map maximalRuns (List.takeWhile (fun s => !(maximalRuns s).isEmpty) rest) := h1
      simp [liveChildren, isLive, stagesRun, hr, hs, h1']

theorem stagesRun_all (l : List (List Char)) (h : ∀ s ∈ l, maximalRuns s ≠ []) :
    stagesRun l = l := by
  unfold stagesRun
  rw [List.takeWhile_eq_self_iff]
  intro s hs
  have := h s hs
  cases hr : maximalRuns s with
  | nil => exact absurd hr this
  | cons t ts => rfl

theorem run_command_of_loop {env : Env} {sh sh1 : Shell} {argv : Argv} {cmd : Nat}
    {ex : LoopExit}
    (h : run_loop env (sh.mem.length + 2) sh argv 0 0 (some cmd) = .ok (sh1, ex)) :
    run_command env sh argv cmd = .ok (after_loop sh1 ex) := by
  unfold run_command
  rw [h]

theorem after_loop_children (sh : Shell) (ex : LoopExit) :
    (after_loop sh ex).children = sh.children := by
  cases ex <;> rfl

theorem fuel_enough (pre seg post : List Char) :
    (stagesOf seg).length < (pre ++ seg ++ NUL :: post).length + 2 := by
  rw [stagesOf_length]
  have := List.count_le_length '|' seg
  simp only [List.length_append, List.length_cons]
  omega

/-- C3: in the descriptor-table model, for every segment that `run_command` can
tokenize (a terminated text whose stages each hold fewer than `argv.length`
arguments) entered with descriptors 0 and 1 open on `a` and `b`, `run_command`
returns, forks exactly the children of the stages up to the first empty or `cd`
stage, and every child whose `open` calls all succeed reaches `exec` with
descriptor 0 on the file of its last `<` that has a following token, else on the
read end of the previous stage's pipe, else on `a`, and with descriptor 1 on the
file of its last `>` that has a following token, else on the write end of the
pipe to the next stage, else on `b`.  Pipes are numbered in creation order, so
the pipe created by stage `k` is pipe `sh.pipes + k`. -/
theorem stage_descriptors (env : Env) (pre seg post : List Char) (sh : Shell) (argv : Argv)
    (a b : Obj) (hmem : sh.mem = pre ++ seg ++ NUL :: post) (hnul : NUL ∉ seg)
    (hcap : ∀ s ∈ stagesOf seg, (maximalRuns s).length < argv.length)
    (h0 : OpenOn sh.tbl 0 a) (h1 : OpenOn sh.tbl 1 b) (hch : sh.children = []) :
    ∃ sh1, run_command env sh argv pre.length = .ok sh1
      ∧ sh1.children.map Child.sig = liveChildren 0 (stagesOf seg)
      ∧ ∀ c ∈ sh1.children, c.opensOk →
          c.reachedExec
          ∧ OpenOn c.proc.tbl 0
              (stdinAfter (if c.stage = 0 then a else .pipeRead (sh.pipes + c.stage - 1))
                c.toks)
          ∧ OpenOn c.proc.tbl 1
              (stdoutAfter (if c.hasNext then .pipeWrite (sh.pipes + c.stage) else b)
                c.toks) := by
  obtain ⟨sh1, evs, hrun, hsig, -, -, -, -⟩ :=
    run_loop_spec env seg.length seg (Nat.le_refl _) pre post sh argv 0 0 (sh.mem.length + 2)
      hmem hnul hcap (by rw [hmem]; exact fuel_enough pre seg post)
  have hw := run_loop_wired env a b sh.pipes _ sh sh1 argv 0 0 (some pre.length) _ hrun
    (fun _ => ⟨h0, h1, rfl, fun _ => rfl, fun h => absurd rfl h⟩)
    (by rw [hch]; intro c hc; simp at hc)
  rw [hch] at hsig
  simp only [List.map_nil, List.nil_append] at hsig
  refine ⟨_, run_command_of_loop hrun, ?_, ?_⟩
  · rw [after_loop_children]; exact hsig
  · intro c hc hok
    rw [after_loop_children] at hc
    exact hw c hc hok

/-- C3, on the segment `cat < in | sort > out`: two children, the first reading
the file `in` and writing the pipe, the second reading the pipe and writing the
file `out`. -/
theorem stage_descriptors_witness :
    liveChildren 0 (stagesOf "cat < in | sort > out\n".toList)
      = [(0, true, ["cat".toList, "<".toList, "in".toList]),
         (1, false, ["sort".toList, ">".toList, "out".toList])]
    ∧ stdinAfter (.inherited 0) ["cat".toList, "<".toList, "in".toList]
        = .file "in".toList [.O_RDONLY]
    ∧ stdoutAfter (.inherited 1) ["sort".toList, ">".toList, "out".toList]
        = .file "out".toList [.O_CREATE, .O_WRONLY]
    ∧ ∃ sh1, run_command envAll (freshShell ([] ++ "cat < in | sort > out\n".toList ++ NUL :: []))
          stackArgv ([] : List Char).length = .ok sh1
      ∧ sh1.children.map Child.sig = liveChildren 0 (stagesOf "cat < in | sort > out\n".toList)
      ∧ ∀ c ∈ sh1.children, c.opensOk →
          c.reachedExec
          ∧ OpenOn c.proc.tbl 0
              (stdinAfter (if c.stage = 0 then .inherited 0 else .pipeRead (0 + c.stage - 1))
                c.toks)
          ∧ OpenOn c.proc.tbl 1
              (stdoutAfter (if c.hasNext then .pipeWrite (0 + c.stage) else .inherited 1)
                c.toks) :=
  ⟨by decide, by decide, by decide,
   stage_descriptors envAll [] "cat < in | sort > out\n".toList []
     (freshShell ([] ++ "cat < in | sort > out\n".toList ++ NUL :: [])) stackArgv
     (.inherited 0) (.inherited 1) rfl (by decide) (by decide) rfl rfl rfl⟩


/-- C4 fails on the code, in two ways.  The segment `ls | | wc` holds two pipe
delimiters, no stage is `cd`, and `run_command` forks a single child and reaps a
single child, because the empty second stage leaves the loop through `break`.
And on the line `ls | cd /;echo hi` the segment `echo hi`, without delimiter
or `cd`, is run while the child of `ls` is still unreaped (the `return` of `cd`
skipped the `wait` loop): one fork, but two successful `wait` calls. -/
theorem empty_stage_stops_pipeline :
    "ls | | wc\n".toList.count '|' = 2
    ∧ (run_command envAll (freshShell ("ls | | wc\n".toList ++ [NUL])) stackArgv 0).toOption.map
        (fun sh => (sh.events, sh.children.map Child.toks))
      = some ([.pipe 3 4, .fork, .close 4, .wait true, .wait false], [["ls".toList]])
    ∧ (main_line envAll stackArgv 101 (freshShell (lineBuf "ls | cd /;echo hi\n".toList))
        0).toOption.map (fun sh => (sh.events, sh.children.map Child.toks))
      = some ([.pipe 3 4, .fork, .close 4, .chdir "/".toList true,
               .fork, .wait true, .wait true, .wait false],
              [["ls".toList], ["echo".toList, "hi".toList]]) := by
  decide

/-- C4 as amended: for every segment with `N` pipe delimiters whose stages each
hold fewer than `argv.length` arguments, none of them being `cd`, entered with
no child left to reap, `run_command` returns after exactly one fork for each
stage that comes before the first stage without argument, in the order of the
stages and with none for that stage or a later one, and after exactly as many
successful `wait` calls, followed by the one failing `wait` that ends the loop.
When every stage holds an argument, that number is `N + 1`. -/
theorem run_command_forks_and_reaps (env : Env) (pre seg post : List Char) (sh : Shell)
    (argv : Argv) (hmem : sh.mem = pre ++ seg ++ NUL :: post) (hnul : NUL ∉ seg)
    (hcap : ∀ s ∈ stagesOf seg, (maximalRuns s).length < argv.length)
    (hcd : ∀ s ∈ stagesOf seg, isCd s = false)
    (hun : sh.unreaped = 0) :
    ∃ sh1 evs, run_command env sh argv pre.length = .ok sh1
      ∧ sh1.events = sh.events ++ evs
      ∧ evs.count .fork = (stagesRun (stagesOf seg)).length
      ∧ evs.count (.wait true) = (stagesRun (stagesOf seg)).length
      ∧ evs.count (.wait false) = 1
      ∧ sh1.children.map Child.toks
          = sh.children.map Child.toks ++ (stagesRun (stagesOf seg)).map maximalRuns
      ∧ sh1.unreaped = 0
      ∧ (stagesRun (stagesOf seg)).length ≤ seg.count '|' + 1
      ∧ ((∀ s ∈ stagesOf seg, maximalRuns s ≠ []) →
          (stagesRun (stagesOf seg)).length = seg.count '|' + 1) := by
  obtain ⟨sh1, evs, hrun, hsig, hun1, hev, hfork, hwait⟩ :=
    run_loop_spec env seg.length seg (Nat.le_refl _) pre post sh argv 0 0 (sh.mem.length + 2)
      hmem hnul hcap (by rw [hmem]; exact fuel_enough pre seg post)
  obtain ⟨htoks, hstop⟩ := liveChildren_noCd (stagesOf seg) 0 hcd
  have hlen : (liveChildren 0 (stagesOf seg)).length = (stagesRun (stagesOf seg)).length := by
    have := congrArg List.length htoks
    simpa using this
  rw [hlen] at hun1 hfork
  rw [hstop] at hrun
  simp only [Bool.false_eq_true, if_false] at hrun
  have hcw : ∀ r, evs.count (.wait r) = 0 := fun r => List.count_eq_zero.mpr (hwait r)
  refine ⟨_, evs ++ List.replicate sh1.unreaped (.wait true) ++ [.wait false],
    run_command_of_loop hrun, ?_, ?_, ?_, ?_, ?_, rfl, ?_, ?_⟩
  · simp [after_loop, wait_all, hev, List.append_assoc]
  · simp [List.count_append, hfork, List.count_replicate, List.count_cons]
  · simp [List.count_append, hcw true, List.count_replicate, List.count_cons, hun1, hun]
  · simp [List.count_append, hcw false, List.count_replicate, List.count_cons]
  · have h := congrArg (List.map (fun x : Nat × Bool × List CStr => x.2.2)) hsig
    simp only [List.map_map, List.map_append, htoks] at h
    simpa [after_loop, wait_all] using h
  · rw [← stagesOf_length]
    exact (List.takeWhile_prefix _).length_le
  · intro hall
    rw [stagesRun_all _ hall, stagesOf_length]

/-- C4 as amended, on the segment `ls | wc`, whose two stages hold an argument
(two forks and two successful waits), and on the segment `ls | | wc`, whose
second stage holds none (one fork, for `ls`, and one successful wait). -/
theorem run_command_forks_and_reaps_witness :
    ("ls | wc\n".toList.count '|' = 1
      ∧ (∀ s ∈ stagesOf "ls | wc\n".toList, maximalRuns s ≠ [])
      ∧ (stagesRun (stagesOf "ls | wc\n".toList)).map maximalRuns
          = [["ls".toList], ["wc".toList]])
    ∧ (∃ sh1 evs, run_command envAll (freshShell ([] ++ "ls | wc\n".toList ++ NUL :: []))
          stackArgv ([] : List Char).length = .ok sh1
      ∧ sh1.events = (freshShell ([] ++ "ls | wc\n".toList ++ NUL :: [])).events ++ evs
      ∧ evs.count .fork = (stagesRun (stagesOf "ls | wc\n".toList)).length
      ∧ evs.count (.wait true) = (stagesRun (stagesOf "ls | wc\n".toList)).length
      ∧ evs.count (.wait false) = 1
      ∧ sh1.children.map Child.toks
          = (freshShell ([] ++ "ls | wc\n".toList ++ NUL :: [])).children.map Child.toks
            ++ (stagesRun (stagesOf "ls | wc\n".toList)).map maximalRuns
      ∧ sh1.unreaped = 0
      ∧ (stagesRun (stagesOf "ls | wc\n".toList)).length ≤ "ls | wc\n".toList.count '|' + 1
      ∧ ((∀ s ∈ stagesOf "ls | wc\n".toList, maximalRuns s ≠ []) →
          (stagesRun (stagesOf "ls | wc\n".toList)).length
            = "ls | wc\n".toList.count '|' + 1))
    ∧ ("ls | | wc\n".toList.count '|' = 2
      ∧ (stagesRun (stagesOf "ls | | wc\n".toList)).map maximalRuns = [["ls".toList]])
    ∧ (∃ sh1 evs, run_command envAll (freshShell ([] ++ "ls | | wc\n".toList ++ NUL :: []))
          stackArgv ([] : List Char).length = .ok sh1
      ∧ sh1.events = (freshShell ([] ++ "ls | | wc\n".toList ++ NUL :: [])).events ++ evs
      ∧ evs.count .fork = (stagesRun (stagesOf "ls | | wc\n".toList)).length
      ∧ evs.count (.wait true) = (stagesRun (stagesOf "ls | | wc\n".toList)).length
      ∧ evs.count (.wait false) = 1
      ∧ sh1.children.map Child.toks
          = (freshShell ([] ++ "ls | | wc\n".toList ++ NUL :: [])).children.map Child.toks
            ++ (stagesRun (stagesOf "ls | | wc\n".toList)).map maximalRuns
      ∧ sh1.unreaped = 0
      ∧ (stagesRun (stagesOf "ls | | wc\n".toList)).length
          ≤ "ls | | wc\n".toList.count '|' + 1
      ∧ ((∀ s ∈ stagesOf "ls | | wc\n".toList, maximalRuns s ≠ []) →
          (stagesRun (stagesOf "ls | | wc\n".toList)).length
            = "ls | | wc\n".toList.count '|' + 1)) :=
  ⟨by decide,
   run_command_forks_and_reaps envAll [] "ls | wc\n".toList []
     (freshShell ([] ++ "ls | wc\n".toList ++ NUL :: [])) stackArgv rfl (by decide) (by decide)
     (by decide) rfl,
   by decide,
   run_command_forks_and_reaps envAll [] "ls | | wc\n".toList []
     (freshShell ([] ++ "ls | | wc\n".toList ++ NUL :: [])) stackArgv rfl (by decide) (by decide)
     (by decide) rfl⟩

/-- C10 fails on the code: on the segment `ls |` the interpreter creates a
pipe on descriptors 3 and 4, closes 4, keeps 3 as `fd_in`, and leaves the loop
on the empty second stage without closing it: when `run_command` returns,
descriptor 3 is still the read end of that pipe.  On `ls | wc`, where the loop
runs to its end, both ends are closed again. -/
theorem dangling_pipe_leaks_read_end :
    (freshShell ("ls |\n".toList ++ [NUL])).tbl
      = [some (.inherited 0), some (.inherited 1), some (.inherited 2)]
    ∧ (run_command envAll (freshShell ("ls |\n".toList ++ [NUL])) stackArgv 0).toOption.map
        (fun sh => (sh.events, sh.tbl))
      = some ([.pipe 3 4, .fork, .close 4, .wait true, .wait false],
              [some (.inherited 0), some (.inherited 1), some (.inherited 2),
               some (.pipeRead 0), none])
    ∧ (run_command envAll (freshShell ("ls | wc\n".toList ++ [NUL])) stackArgv 0).toOption.map
        (fun sh => (sh.events, sh.tbl))
      = some ([.pipe 3 4, .fork, .close 4, .fork, .close 3, .wait true, .wait true,
               .wait false],
              [some (.inherited 0), some (.inherited 1), some (.inherited 2), none, none]) := by
  decide

/-- C2 fails on the code: for `echo hi > out.txt` the child opens `out.txt` with
`O_CREATE|O_WRONLY` only, so an existing longer content is not emptied and the
bytes `hi\n` overwrite just its first three bytes. -/
theorem redirect_out_does_not_truncate :
    (run_command envAll (freshShell ("echo hi > out.txt\n".toList ++ [NUL])) stackArgv
        0).toOption.map (fun sh => sh.children.map (fun c => c.proc.events))
      = some [[.open "out.txt".toList [.O_CREATE, .O_WRONLY] (some 3), .close 1,
               .dup 3 (some 1), .close 3, .exec (some "echo".toList) true]]
    ∧ OFlag.O_TRUNC ∉ [OFlag.O_CREATE, OFlag.O_WRONLY]
    ∧ (contentAfterOpen (some "hello world\n".toList) [.O_CREATE, .O_WRONLY]).map
        (fun c => contentAfterWrite c "hi\n".toList) = some "hi\nlo world\n".toList := by
  decide


/-! ## The claims about `redirect_io` and the child -/

/-- C6 fails on the code: for `echo hi > out.txt` (buffer and array as `split`
leaves them) `redirect_io` succeeds and nulls the operator slot `argv[2]`, but
the filename slot `argv[3]` still points to `out.txt`. -/
theorem redirect_io_keeps_filename :
    split ("echo hi > out.txt\n".toList ++ [NUL]) 0 (List.replicate 6 none)
      = .ok (echoMem, echoArgv)
    ∧ cstr echoMem 10 = some "out.txt".toList
    ∧ (redirect_io envAll 0 echoMem echoArgv (freshShell echoMem).proc).toOption.map
        (fun r => (r.1, r.2.1))
      = some (1, [some 0, some 5, none, some 10, none, none]) := by
  decide

/-- C6 as amended: on every well-formed argument vector `redirect_io` returns,
and when it succeeds the array has kept its length, the slot of every handled
operator (a `>` or `<` before the sentinel with a non-null slot behind it) is
null, and every other slot, the filename slots included, holds what it held
before. -/
theorem redirect_io_nulls_operators (env : Env) (stage : Nat) (mem : Mem) (argv : Argv)
    (toks : List CStr) (p : Proc) (hv : ValidArgv mem argv toks) :
    ∃ ret argv1 p1, redirect_io env stage mem argv p = .ok (ret, argv1, p1)
      ∧ (0 ≤ ret →
          argv1.length = argv.length
          ∧ ∀ j, (HandledFrom mem argv 0 j → argv1[j]? = some none)
               ∧ (¬ HandledFrom mem argv 0 j → argv1[j]? = argv[j]?)) := by
  obtain ⟨ret, argv1, p1, hr⟩ := redirect_io_total env stage mem argv toks p hv
  exact ⟨ret, argv1, p1, hr, fun hret =>
    redirect_io_loop_argv env stage mem _ 0 argv argv1 p p1 0 ret hr (by omega) hret⟩

theorem echo_valid :
    ValidArgv echoMem echoArgv ["echo".toList, "hi".toList, ">".toList, "out.txt".toList] :=
  ⟨[0, 5, 8, 10], [none], rfl,
    .cons ⟨[], "hi".toList ++ NUL :: ">".toList ++ NUL :: "out.txt".toList ++ [NUL, NUL],
            rfl, rfl, by decide⟩
    (.cons ⟨"echo".toList ++ [NUL], ">".toList ++ NUL :: "out.txt".toList ++ [NUL, NUL],
            rfl, rfl, by decide⟩
    (.cons ⟨"echo".toList ++ NUL :: "hi".toList ++ [NUL], "out.txt".toList ++ [NUL, NUL],
            rfl, rfl, by decide⟩
    (.cons ⟨"echo".toList ++ NUL :: "hi".toList ++ NUL :: ">".toList ++ [NUL], [NUL],
            rfl, rfl, by decide⟩ .nil)))⟩

/-- C6 as amended, on `echo hi > out.txt`. -/
theorem redirect_io_nulls_operators_witness :
    ValidArgv echoMem echoArgv ["echo".toList, "hi".toList, ">".toList, "out.txt".toList]
    ∧ ∃ ret argv1 p1, redirect_io envAll 0 echoMem echoArgv (freshShell echoMem).proc
          = .ok (ret, argv1, p1)
      ∧ (0 ≤ ret →
          argv1.length = echoArgv.length
          ∧ ∀ j, (HandledFrom echoMem echoArgv 0 j → argv1[j]? = some none)
               ∧ (¬ HandledFrom echoMem echoArgv 0 j → argv1[j]? = echoArgv[j]?)) :=
  ⟨echo_valid, redirect_io_nulls_operators envAll 0 echoMem echoArgv _ (freshShell echoMem).proc
    echo_valid⟩

theorem wire_pipes_no_open (tbl : FdTable) (fd_in : Nat) (next : Option (Nat × Nat)) :
    ∀ e ∈ (wire_pipes tbl fd_in next).events, e.isFailedOpen = false := by
  unfold wire_pipes
  intro e he
  by_cases hf : fd_in ≠ 0
  · cases next with
    | none =>
      simp only [if_pos hf, Proc.close, Proc.dup, List.nil_append, List.cons_append,
        List.mem_cons, List.mem_singleton, List.not_mem_nil, or_false] at he
      rcases he with rfl | rfl | rfl <;> rfl
    | some rw =>
      simp only [if_pos hf, Proc.close, Proc.dup, List.nil_append, List.cons_append,
        List.mem_cons, List.mem_singleton, List.not_mem_nil, or_false] at he
      rcases he with rfl | rfl | rfl | rfl | rfl | rfl | rfl <;> rfl
  · cases next with
    | none =>
      simp only [if_neg hf, List.not_mem_nil] at he
    | some rw =>
      simp only [if_neg hf, Proc.close, Proc.dup, List.nil_append, List.cons_append,
        List.mem_cons, List.mem_singleton, List.not_mem_nil, or_false] at he
      rcases he with rfl | rfl | rfl | rfl <;> rfl

/-- C5: on every well-formed argument vector the code of the child runs to its
end without fault, and the calls it makes are descriptor calls followed by
exactly one of three endings.  If an `open` of `redirect_io` failed, then
`redirect_io` returned -1 and the child ends with the message
`Redirection failed` and `exit(1)`, without any `exec`.  Otherwise `redirect_io`
returned 0 or more and the child ends either with a successful `exec` of
`argv[0]`, or with the failed `exec`, the message `<argv[0]>: command not found`
and `exit(1)`. -/
theorem child_ends_in_exec_or_exit (env : Env) (stage : Nat) (mem : Mem) (argv : Argv)
    (toks : List CStr) (tbl : FdTable) (fd_in : Nat) (next : Option (Nat × Nat))
    (hv : ValidArgv mem argv toks) :
    ∃ c ret argv1 p3,
      run_child env stage mem argv tbl fd_in next = .ok c
      ∧ redirect_io env stage mem argv (wire_pipes tbl fd_in next) = .ok (ret, argv1, p3)
      ∧ (∀ e ∈ p3.events, e.isDescriptorCall = true)
      ∧ (((∃ e ∈ p3.events, e.isFailedOpen = true) ∧ ret = -1
            ∧ c.proc.events = p3.events ++ [.printf "Redirection failed\n" [], .exit 1])
        ∨ ((∀ e ∈ p3.events, e.isFailedOpen = false) ∧ 0 ≤ ret
            ∧ ∃ name,
                name = (match argv1[0]? with
                        | some (some a0) => cstr mem a0
                        | _ => none)
                ∧ ((env.execOk stage name = true
                      ∧ c.proc.events = p3.events ++ [.exec name true])
                  ∨ (env.execOk stage name = false
                      ∧ c.proc.events = p3.events ++
                          [.exec name false, .printf "%s: command not found\n" [name],
                           .exit 1])))) := by
  obtain ⟨c, hc⟩ := run_child_total env stage mem argv toks tbl fd_in next hv
  obtain ⟨ret, argv1, p3, hr, -, -, -, -, hcase⟩ := run_child_cases hc
  obtain ⟨evs, hevs, hdesc, hok, hfail⟩ :=
    redirect_io_loop_events env stage mem _ 0 argv argv1 _ p3 0 ret hr (by omega)
  have hwire := wire_pipes_events tbl fd_in next
  have hwire_nf := wire_pipes_no_open tbl fd_in next
  refine ⟨c, ret, argv1, p3, hc, hr, ?_, ?_⟩
  · intro e he
    rw [hevs] at he
    rcases List.mem_append.mp he with h | h
    · exact hwire e h
    · exact hdesc e h
  · rcases hcase with ⟨hneg, hproc⟩ | ⟨hret, name, hname, hproc⟩
    · obtain ⟨h1, e, he, hfe⟩ := hfail hneg
      exact Or.inl ⟨⟨e, by rw [hevs]; exact List.mem_append_right _ he, hfe⟩, h1,
        by rw [hproc]⟩
    · right
      refine ⟨?_, hret, name, ?_, ?_⟩
      · intro e he
        rw [hevs] at he
        rcases List.mem_append.mp he with h | h
        · exact hwire_nf e h
        · exact hok hret e h
      · rcases hname with ⟨h0, rfl⟩ | ⟨a0, nm, h0, hcs, rfl⟩
        · simp [h0]
        · simp [h0, hcs]
      · rw [hproc]
        exact exec_or_exit_events env stage p3 name

/-- C5, on the child of `echo hi > out.txt`, forked as a last stage behind a pipe
whose read end is descriptor 3. -/
theorem child_ends_in_exec_or_exit_witness :
    ValidArgv echoMem echoArgv ["echo".toList, "hi".toList, ">".toList, "out.txt".toList]
    ∧ ∃ c ret argv1 p3,
      run_child envAll 1 echoMem echoArgv
          [some (.inherited 0), some (.inherited 1), none, some (.pipeRead 0)] 3 none = .ok c
      ∧ redirect_io envAll 1 echoMem echoArgv
          (wire_pipes [some (.inherited 0), some (.inherited 1), none, some (.pipeRead 0)] 3 none)
          = .ok (ret, argv1, p3)
      ∧ (∀ e ∈ p3.events, e.isDescriptorCall = true)
      ∧ (((∃ e ∈ p3.events, e.isFailedOpen = true) ∧ ret = -1
            ∧ c.proc.events = p3.events ++ [.printf "Redirection failed\n" [], .exit 1])
        ∨ ((∀ e ∈ p3.events, e.isFailedOpen = false) ∧ 0 ≤ ret
            ∧ ∃ name,
                name = (match argv1[0]? with
                        | some (some a0) => cstr echoMem a0
                        | _ => none)
                ∧ ((envAll.execOk 1 name = true
                      ∧ c.proc.events = p3.events ++ [.exec name true])
                  ∨ (envAll.execOk 1 name = false
                      ∧ c.proc.events = p3.events ++
                          [.exec name false, .printf "%s: command not found\n" [name],
                           .exit 1])))) :=
  ⟨echo_valid, child_ends_in_exec_or_exit envAll 1 echoMem echoArgv _
    [some (.inherited 0), some (.inherited 1), none, some (.pipeRead 0)] 3 none echo_valid⟩

/-! ## The claim about the built-in `cd` -/

/-- C9: when the stage under the pointer of the loop of `run_command` has first
argument `cd` (its text `s0` is followed by a pipe delimiter or by the
terminator), then whatever the state of the loop, this iteration is the last
one and the loop is left through `return`: the interpreter only gains the
calls `cdEvents`, that is one `chdir` on the second argument when there is one,
and the diagnostic exactly when there is none or `chdir` failed; no child is
added, the descriptor table and the count of children to reap are untouched.  In
particular `run_command` entered on such a stage returns without any `pipe`,
`fork` or `wait`. -/
theorem cd_returns_immediately (env : Env) (sh : Shell) (argv : Argv)
    (pre s0 post : List Char) (sep : Char) (args : List CStr)
    (hmem : sh.mem = pre ++ s0 ++ sep :: post) (hsep : sep = NUL ∨ sep = '|')
    (hpipe : '|' ∉ s0) (hnul : NUL ∉ s0) (hcd : maximalRuns s0 = cdName :: args)
    (hcap : (maximalRuns s0).length < argv.length) :
    (∀ f fd_in stage,
        run_loop env (f + 1) sh argv fd_in stage (some pre.length)
          = .ok ({ sh with mem := pre ++ zeroWs s0 ++ NUL :: post,
                           events := sh.events ++ cdEvents env args }, .returned))
    ∧ run_command env sh argv pre.length
        = .ok { sh with mem := pre ++ zeroWs s0 ++ NUL :: post,
                        events := sh.events ++ cdEvents env args }
    ∧ (args = [] → cdEvents env args = [cdDiag])
    ∧ (∀ path rest, args = path :: rest →
        cdEvents env args
          = if env.chdirOk path then [.chdir path true] else [.chdir path false, cdDiag]) := by
  obtain ⟨next_cmd, hcut⟩ : ∃ next_cmd,
      cut_stage sh.mem pre.length = some (pre ++ s0 ++ NUL :: post, next_cmd) := by
    rcases hsep with rfl | rfl
    · exact ⟨none, by rw [hmem]; exact cut_stage_last pre s0 post hpipe hnul⟩
    · exact ⟨_, by rw [hmem]; exact cut_stage_pipe pre s0 post hpipe hnul⟩
  have hloop : ∀ f fd_in stage,
      run_loop env (f + 1) sh argv fd_in stage (some pre.length)
        = .ok ({ sh with mem := pre ++ zeroWs s0 ++ NUL :: post,
                         events := sh.events ++ cdEvents env args }, .returned) :=
    fun f fd_in stage =>
      (run_loop_stage env f sh argv fd_in stage pre s0 post next_cmd hcut hnul hcap).2.1 args hcd
  refine ⟨hloop, ?_, ?_, ?_⟩
  · exact run_command_of_loop (hloop (sh.mem.length + 1) 0 0)
  · intro h; subst h; rfl
  · intro path rest h; subst h; rfl

/-- C9, on the segment `cd /tmp`, met as second stage with a pending input
descriptor 3, and met as first stage of `run_command`. -/
theorem cd_returns_immediately_witness :
    maximalRuns "cd /tmp\n".toList = [cdName, "/tmp".toList]
    ∧ cdEvents envAll ["/tmp".toList] = [.chdir "/tmp".toList true]
    ∧ run_loop envAll (7 + 1) (freshShell ([] ++ "cd /tmp\n".toList ++ NUL :: [])) stackArgv
          3 1 (some ([] : List Char).length)
        = .ok ({ freshShell ([] ++ "cd /tmp\n".toList ++ NUL :: []) with
                   mem := [] ++ zeroWs "cd /tmp\n".toList ++ NUL :: [],
                   events := (freshShell ([] ++ "cd /tmp\n".toList ++ NUL :: [])).events
                     ++ cdEvents envAll ["/tmp".toList] }, .returned)
    ∧ run_command envAll (freshShell ([] ++ "cd /tmp\n".toList ++ NUL :: [])) stackArgv
          ([] : List Char).length
        = .ok { freshShell ([] ++ "cd /tmp\n".toList ++ NUL :: []) with
                  mem := [] ++ zeroWs "cd /tmp\n".toList ++ NUL :: [],
                  events := (freshShell ([] ++ "cd /tmp\n".toList ++ NUL :: [])).events
                    ++ cdEvents envAll ["/tmp".toList] } :=
  ⟨by decide, by decide,
   (cd_returns_immediately envAll (freshShell ([] ++ "cd /tmp\n".toList ++ NUL :: [])) stackArgv
     [] "cd /tmp\n".toList [] NUL ["/tmp".toList] rfl (Or.inl rfl) (by decide) (by decide)
     (by decide) (by decide)).1 7 3 1,
   (cd_returns_immediately envAll (freshShell ([] ++ "cd /tmp\n".toList ++ NUL :: [])) stackArgv
     [] "cd /tmp\n".toList [] NUL ["/tmp".toList] rfl (Or.inl rfl) (by decide) (by decide)
     (by decide) (by decide)).2.1⟩

end MyShell
